import Mathlib

/-!
Verification of the b3hash directory-fingerprinting library.

Shallow embedding of the core of the crate: the directory walker
(src/fs.rs), the hashing pipeline, serializer and validator
(src/util.rs) and the public operations (src/lib.rs).

Modelling conventions:
* Strings and file contents are byte lists (`Bytes := List Nat`);
  all the path manipulation in the source is byte level (UTF-8).
* The blake3 primitive is an abstract parameter `H : Bytes → Bytes`:
  a streaming hasher that is updated with chunks and finalized equals
  `H` applied to the concatenation of the chunks.  None of the claims
  depends on the internals of blake3.
* The filesystem seen by one run is a tree `FSEntry`.  I/O failures
  observed by the code (read_dir failing, file_type failing, an
  unreadable file) are part of the tree, carrying the `IOErr` value
  the OS would return.  The build target modelled is non-Windows, so
  `oi_vei` is instantiated with `w = false` in the pipeline.
* rayon: `par_iter().map(...).collect::<Result<Vec,_>>()` preserves
  the order of the input list independently of task completion order,
  which is what the sequential `hashAll` below computes.  The explicit
  worklist of `get_files` (a LIFO stack of pending directories) visits
  exactly the visible entries of the tree; it is embedded as the
  structural recursion `entriesFiles`, whose output lists the same
  files (the source itself documents the order as unspecified, and
  every consumer sorts before use).
* `Utf8PathBuf` comparison: camino delegates `Ord` to
  `std::path::Path`, which compares paths component-wise (each
  component by byte order).  On the set of paths produced by the
  walker (a fixed root followed by separator-free entry names) this
  order coincides with byte-lexicographic order in which the
  separator 47 is treated as smaller than every other byte; `pathLe`
  below is exactly that order.
-/

/-- Bytes of a UTF-8 string or of a file content. -/
abbrev Bytes := List Nat

/-- The `std::io::ErrorKind` values the source distinguishes. -/
inductive ErrKind where
  | notFound
  | invalidData
  | permissionDenied
  | otherErr
deriving DecidableEq

/-- A `std::io::Error`: its kind plus an abstract code standing for the
rest of the payload, so distinct OS errors stay distinguishable. -/
structure IOErr where
  kind : ErrKind
  code : Nat
deriving DecidableEq

instance {ε α : Type} [DecidableEq ε] [DecidableEq α] : DecidableEq (Except ε α) :=
fun a b =>
  match a, b with
  | .ok x, .ok y => if h : x = y then .isTrue (by rw [h]) else .isFalse (by simp [h])
  | .error x, .error y => if h : x = y then .isTrue (by rw [h]) else .isFalse (by simp [h])
  | .ok _, .error _ => .isFalse (by simp)
  | .error _, .ok _ => .isFalse (by simp)

/-- One entry of the filesystem tree, as observed through `std::fs`
during a single run.  A `file` carries what `update_mmap` will see:
either its content or the I/O error.  A `dir` carries its listing;
`badDir` is a directory whose `read_dir` fails, `badType` an entry
whose `file_type()` call fails, `other` a symlink/device/socket. -/
inductive FSEntry where
  | file (name : Bytes) (content : Except IOErr Bytes)
  | dir (name : Bytes) (entries : List FSEntry)
  | other (name : Bytes)
  | badDir (name : Bytes) (e : IOErr)
  | badType (name : Bytes) (e : IOErr)

/-- The file name of an entry, as returned by `entry.file_name()`. -/
def FSEntry.name : FSEntry → Bytes
  | .file n _ => n
  | .dir n _ => n
  | .other n => n
  | .badDir n _ => n
  | .badType n _ => n

/-- `HIDDEN_ENTRY_PREFIX`: `starts_with('.')` on the entry name
(byte 46; the dot is ASCII, so the first byte test is the first char
test). -/
def hiddenName (n : Bytes) : Bool := n.head? == some 46

/-- `Utf8Path::join` / `PathBuf::push` (unix): an absolute argument
replaces the path; otherwise a separator is inserted unless the base
is empty or already ends with one. -/
def pathJoin (dir rel : Bytes) : Bytes :=
  if rel.head? = some 47 then rel
  else if dir = [] then rel
  else if dir.getLast? = some 47 then dir ++ rel
  else dir ++ 47 :: rel

/-- A file discovered by the walk: its absolute path together with
what reading it at hash time will yield (the tree is immutable during
one run, so the content rides along with the path). -/
structure FileRef where
  path : Bytes
  content : Except IOErr Bytes
deriving DecidableEq

/-- Error used when `read_dir` is applied to a non-directory. -/
def notADirErr : IOErr := ⟨ErrKind.otherErr, 0⟩

mutual

/-- The contribution of one directory entry to the walk
(`push_entries` from src/fs.rs, with the later processing of pushed
folders inlined): hidden entries are skipped before their type is even
inspected; files are collected, directories are expanded, any other
type is ignored, and a failing `file_type()` or `read_dir()` aborts
the walk with its error. -/
def entryFiles (curPath : Bytes) (en : FSEntry) : Except IOErr (List FileRef) :=
  if hiddenName en.name then .ok [] else
  match en with
  | .file n c => .ok [⟨pathJoin curPath n, c⟩]
  | .dir n es => entriesFiles (pathJoin curPath n) es
  | .other _ => .ok []
  | .badDir _ e => .error e
  | .badType _ e => .error e

/-- The walk over a directory listing, entry by entry. -/
def entriesFiles (dirPath : Bytes) (es : List FSEntry) : Except IOErr (List FileRef) :=
  match es with
  | [] => .ok []
  | en :: rest =>
    match entryFiles dirPath en with
    | .error e => .error e
    | .ok fs₁ =>
      match entriesFiles dirPath rest with
      | .error e => .error e
      | .ok fs₂ => .ok (fs₁ ++ fs₂)

end

/-- `get_files` from src/fs.rs: seed the worklist with the root and
expand until empty.  The root entry itself is listed without any
visibility check on its own name; listing a non-directory root fails
with an I/O error. -/
def get_files (dirPath : Bytes) (root : FSEntry) : Except IOErr (List FileRef) :=
  match root with
  | .dir _ es => entriesFiles dirPath es
  | .badDir _ e => .error e
  | .file _ _ => .error notADirErr
  | .other _ => .error notADirErr
  | .badType _ e => .error e

/-- Strict order on bytes in which the path separator 47 comes before
every other byte.  Componentwise path comparison coincides with
byte-lexicographic comparison under this order on the paths the
walker produces (fixed root, separator-free names). -/
def sepLt (a b : Nat) : Bool := a ≠ b && (a = 47 || (b ≠ 47 && a < b))

/-- The path order used by `file_list.sort_unstable()`:
lexicographic on bytes with `sepLt` as the byte order. -/
def pathLe : Bytes → Bytes → Bool
  | [], _ => true
  | _ :: _, [] => false
  | a :: as, b :: bs => if a = b then pathLe as bs else sepLt a b

/-- Comparison of two discovered files, by path. -/
def refLe (f g : FileRef) : Prop := pathLe f.path g.path = true

instance : DecidableRel refLe := fun f g => decEq (pathLe f.path g.path) true

/-- `file_list.sort_unstable()`: the sorted permutation of the file
list under the path order (with distinct paths the result does not
depend on the sorting algorithm). -/
def sortPaths (l : List FileRef) : List FileRef := List.insertionSort refLe l

/-- `oi_vei` from src/util.rs: on Windows every backslash (92) is
replaced by a forward slash (47); elsewhere the string is returned
unchanged. -/
def oi_vei (w : Bool) (s : Bytes) : Bytes :=
  if w then s.map (fun c => if c = 92 then 47 else c) else s

/-- One record of the result `Vec<HashedFile>` (src/types.rs). -/
structure HashedFile where
  hash : Bytes
  path : Bytes
  size : Nat
deriving DecidableEq

/-- The body of the parallel map in `hash_files`: hash the file via
its memory map (an unreadable file surfaces its error), strip
`prefix_len` bytes from the absolute path, normalize separators.
The build target is non-Windows, so `oi_vei` gets `false`. -/
def hashOneFile (H : Bytes → Bytes) (stripLen : Nat) (f : FileRef) :
    Except IOErr HashedFile :=
  match f.content with
  | .error e => .error e
  | .ok data => .ok ⟨H data, oi_vei false (f.path.drop stripLen), data.length⟩

/-- `collect::<IOResult<Vec<_>>>()` over the per-file results: all
successes are kept in order, any failure aborts the batch. -/
def hashAll (H : Bytes → Bytes) (stripLen : Nat) : List FileRef → Except IOErr (List HashedFile)
  | [] => .ok []
  | f :: fs =>
    match hashOneFile H stripLen f with
    | .error e => .error e
    | .ok h =>
      match hashAll H stripLen fs with
      | .error e => .error e
      | .ok hs => .ok (h :: hs)

/-- `hash_files` from src/util.rs: walk, sort by path, hash each file
and strip `dir_path.len() + 1` bytes from its absolute path. -/
def hash_files (H : Bytes → Bytes) (dir_path : Bytes) (root : FSEntry) :
    Except IOErr (List HashedFile) :=
  let stripLen := dir_path.length + 1
  match get_files dir_path root with
  | .error e => .error e
  | .ok file_list => hashAll H stripLen (sortPaths file_list)

/-- `Utf8Path::file_name().unwrap_or(dir_path)` used for `dir_name`:
the last non-empty, non-dot component, or the whole input when there
is none or it is a parent-dir component. -/
def file_name (p : Bytes) : Bytes :=
  match ((p.splitOn 47).filter (fun c => c ≠ [] && c ≠ [46])).getLast? with
  | some l => if l = [46, 46] then p else l
  | none => p

/-- The result struct of `hash_directory` (src/types.rs). -/
structure HashedDirectory where
  dir_name : Bytes
  files : List HashedFile
  hash : Bytes
  size : Nat
deriving DecidableEq

/-- `hash_directory` from src/lib.rs: hash the files, then fold each
record (raw digest bytes, then path bytes) into one running hasher and
sum the sizes (u64 arithmetic, hence the 2^64 reduction). -/
def hash_directory (H : Bytes → Bytes) (dir_path : Bytes) (root : FSEntry) :
    Except IOErr HashedDirectory :=
  match hash_files H dir_path root with
  | .error e => .error e
  | .ok hashed_files =>
    .ok { dir_name := file_name dir_path
        , files := hashed_files
        , hash := H (hashed_files.foldl (fun acc f => acc ++ f.hash ++ f.path) [])
        , size := hashed_files.foldl (fun acc f => (acc + f.size) % (2 ^ 64)) 0 }

/-- Lowercase hex digit of a value below 16 (`to_hex`). -/
def hexDigit (n : Nat) : Nat := if n < 10 then 48 + n else 87 + n

/-- `Hash::to_hex`: two lowercase hex digits per digest byte. -/
def toHex (h : Bytes) : Bytes := h.flatMap (fun b => [hexDigit (b / 16), hexDigit (b % 16)])

/-- `serialize_hashed_files` from src/util.rs: for each record, the
hex digest, one space (32), the path, one line feed (10), folded into
one buffer. -/
def serialize_hashed_files (hashed_files : List HashedFile) : Bytes :=
  hashed_files.foldl (fun buf f => buf ++ toHex f.hash ++ 32 :: f.path ++ [10]) []

/-- `create_hashfile` from src/lib.rs: the document written to the
fixed filename is the serialization of `hash_files`; the model returns
the bytes written. -/
def create_hashfile (H : Bytes → Bytes) (dir_path : Bytes) (root : FSEntry) :
    Except IOErr Bytes :=
  match hash_files H dir_path root with
  | .error e => .error e
  | .ok hashed_files => .ok (serialize_hashed_files hashed_files)

/-- `str::split_once(c)`: the part before the first occurrence of the
separator and everything after it, or nothing when it is absent. -/
def splitOnceSep (sep : Nat) : Bytes → Option (Bytes × Bytes)
  | [] => none
  | b :: rest =>
    if b = sep then some ([], rest)
    else
      match splitOnceSep sep rest with
      | none => none
      | some (l, r) => some (b :: l, r)

/-- Split at every line feed, keeping the line feeds out and the empty
final segment of a terminated input in.  The result is never empty. -/
def splitNL : Bytes → List Bytes
  | [] => [[]]
  | b :: rest =>
    if b = 10 then [] :: splitNL rest
    else
      match splitNL rest with
      | [] => [[b]]
      | p :: ps => (b :: p) :: ps

/-- Removal of the carriage return a segment terminated by a line feed
may end with. -/
def stripCR (l : Bytes) : Bytes := if l.getLast? = some 13 then l.dropLast else l

/-- Reassembly of the segments of `splitNL` into lines: every segment
but the last was terminated by a line feed, so a final carriage return
is removed from it; the last segment is dropped when empty (a trailing
line feed opens no new line) and kept as is otherwise. -/
def assembleLines : List Bytes → List Bytes
  | [] => []
  | [seg] => if seg = [] then [] else [seg]
  | seg :: rest => stripCR seg :: assembleLines rest

/-- `str::lines` (and rayon `par_lines`): lines are terminated by a
line feed or by a carriage return plus line feed; the final line
feed is optional, and a carriage return is removed only when a line
feed follows it. -/
def splitLines (data : Bytes) : List Bytes := assembleLines (splitNL data)

/-- Value of one hex digit (`Hash::from_hex` accepts both cases). -/
def hexVal (b : Nat) : Option Nat :=
  if 48 ≤ b ∧ b ≤ 57 then some (b - 48)
  else if 97 ≤ b ∧ b ≤ 102 then some (b - 87)
  else if 65 ≤ b ∧ b ≤ 70 then some (b - 55)
  else none

/-- Decoding of an even run of hex digits into bytes. -/
def fromHexPairs : Bytes → Option Bytes
  | [] => some []
  | [_] => none
  | a :: b :: rest =>
    match hexVal a, hexVal b, fromHexPairs rest with
    | some x, some y, some r => some ((16 * x + y) :: r)
    | _, _, _ => none

/-- `Hash::from_hex`: exactly 64 hex digits, decoded to 32 bytes. -/
def fromHex (l : Bytes) : Option Bytes :=
  if l.length = 64 then fromHexPairs l else none

/-- What one absolute path looks like on disk at validation time:
missing, present with a readable content or a read failure, or an
existence check that itself fails. -/
inductive FileStatus where
  | absent
  | present (content : Except IOErr Bytes)
  | statErr (e : IOErr)
deriving DecidableEq

/-- One iteration of the `filter_map` in `validate_data`
(src/util.rs): split the line once on the delimiter, decode the hex
digest, rebuild the absolute path, check existence, re-hash and
compare.  A missing delimiter is a NotFound error, an undecodable
digest an InvalidData error; a failing existence check or re-hash
aborts with the underlying error; a missing file or a digest mismatch
contributes the joined path to the failed list. -/
def checkLine (H : Bytes → Bytes) (dir_path : Bytes) (disk : Bytes → FileStatus)
    (line : Bytes) : Except IOErr (Option Bytes) :=
  match splitOnceSep 32 line with
  | some (hashHex, file_path) =>
    match fromHex hashHex with
    | some old_hash =>
      let path := pathJoin dir_path file_path
      match disk path with
      | .present (.ok data) =>
        if old_hash == H data then .ok none else .ok (some path)
      | .present (.error e) => .error e
      | .absent => .ok (some path)
      | .statErr e => .error e
    | none => .error ⟨ErrKind.invalidData, 0⟩
  | none => .error ⟨ErrKind.notFound, 0⟩

/-- `collect::<IOResult<Vec<_>>>()` over the per-line results:
successes are kept in input order.  When several lines fail, the
error the parallel collection returns is scheduling dependent, so
exact-error conclusions are only drawn under a unique-failing-line
hypothesis; over arbitrary documents only the existence of an error
is concluded. -/
def runLines (g : Bytes → Except IOErr (Option Bytes)) :
    List Bytes → Except IOErr (List Bytes)
  | [] => .ok []
  | l :: ls =>
    match g l with
    | .error e => .error e
    | .ok none => runLines g ls
    | .ok (some p) =>
      match runLines g ls with
      | .error e => .error e
      | .ok ps => .ok (p :: ps)

/-- `validate_data` from src/util.rs: normalize the root, process each
line of the document, and return nothing when no file failed, else the
failed list.  (The reinterpretation of the raw document bytes as a
string is unchecked in the source; see `validate_data_raw`.) -/
def validate_data (H : Bytes → Bytes) (dir_path : Bytes) (old_data : Bytes)
    (disk : Bytes → FileStatus) : Except IOErr (Option (List Bytes)) :=
  let dp := oi_vei false dir_path
  match runLines (checkLine H dp disk) (splitLines old_data) with
  | .error e => .error e
  | .ok failed =>
    .ok (match failed.length with
         | 0 => none
         | _ => some failed)

/-- RFC 3629 UTF-8 validity of a byte sequence, the precondition of
the unchecked `String::from_utf8_unchecked` in `validate_data`. -/
def validUTF8 : Bytes → Bool
  | [] => true
  | b :: rest =>
    if b < 128 then validUTF8 rest
    else if 194 ≤ b ∧ b ≤ 223 then
      match rest with
      | c :: r => 128 ≤ c && c ≤ 191 && validUTF8 r
      | [] => false
    else if b = 224 then
      match rest with
      | c :: d :: r => 160 ≤ c && c ≤ 191 && 128 ≤ d && d ≤ 191 && validUTF8 r
      | _ => false
    else if (225 ≤ b ∧ b ≤ 236) ∨ b = 238 ∨ b = 239 then
      match rest with
      | c :: d :: r => 128 ≤ c && c ≤ 191 && 128 ≤ d && d ≤ 191 && validUTF8 r
      | _ => false
    else if b = 237 then
      match rest with
      | c :: d :: r => 128 ≤ c && c ≤ 159 && 128 ≤ d && d ≤ 191 && validUTF8 r
      | _ => false
    else if b = 240 then
      match rest with
      | c :: d :: e :: r =>
        144 ≤ c && c ≤ 191 && 128 ≤ d && d ≤ 191 && 128 ≤ e && e ≤ 191 && validUTF8 r
      | _ => false
    else if 241 ≤ b ∧ b ≤ 243 then
      match rest with
      | c :: d :: e :: r =>
        128 ≤ c && c ≤ 191 && 128 ≤ d && d ≤ 191 && 128 ≤ e && e ≤ 191 && validUTF8 r
      | _ => false
    else if b = 244 then
      match rest with
      | c :: d :: e :: r =>
        128 ≤ c && c ≤ 143 && 128 ≤ d && d ≤ 191 && 128 ≤ e && e ≤ 191 && validUTF8 r
      | _ => false
    else false

/-- The raw entry point `validate_data` actually exposed: the document
bytes are reinterpreted as a string by `String::from_utf8_unchecked`
with no check, so the function is only defined (`some`) on valid UTF-8
documents; on any other document the call is outside the defined
domain of the unsafe reinterpretation (`none`), it does not become a
format error. -/
def validate_data_raw (H : Bytes → Bytes) (dir_path : Bytes) (old_data : Bytes)
    (disk : Bytes → FileStatus) : Option (Except IOErr (Option (List Bytes))) :=
  if validUTF8 old_data then some (validate_data H dir_path old_data disk) else none

mutual

/-- The name chains and contents of the visible files beneath one
entry, in listing order: the canonical description of what the walker
collects.  A chain is the list of entry names from the listing of the
root down to the file, and the content is what reading the file
yields. -/
def entryChains (en : FSEntry) : List (List Bytes × Except IOErr Bytes) :=
  if hiddenName en.name then [] else
  match en with
  | .file n c => [([n], c)]
  | .dir n es => (entriesChains es).map (fun p => (n :: p.1, p.2))
  | .other _ => []
  | .badDir _ _ => []
  | .badType _ _ => []

/-- Visible file chains of a whole listing. -/
def entriesChains (es : List FSEntry) : List (List Bytes × Except IOErr Bytes) :=
  match es with
  | [] => []
  | en :: rest => entryChains en ++ entriesChains rest

end

mutual

/-- All file chains beneath one entry, hidden or not. -/
def entryAllChains (en : FSEntry) : List (List Bytes × Except IOErr Bytes) :=
  match en with
  | .file n c => [([n], c)]
  | .dir n es => (entriesAllChains es).map (fun p => (n :: p.1, p.2))
  | .other _ => []
  | .badDir _ _ => []
  | .badType _ _ => []

/-- All file chains of a whole listing, hidden or not. -/
def entriesAllChains (es : List FSEntry) : List (List Bytes × Except IOErr Bytes) :=
  match es with
  | [] => []
  | en :: rest => entryAllChains en ++ entriesAllChains rest

end

mutual

/-- The walk beneath one entry raises no I/O error: no visible entry
with a failing `file_type()`, no visible directory whose `read_dir`
fails.  Hidden entries are skipped before being inspected, so they
never contribute an error. -/
def entryWalkOk (en : FSEntry) : Bool :=
  hiddenName en.name ||
  match en with
  | .file _ _ => true
  | .dir _ es => entriesWalkOk es
  | .other _ => true
  | .badDir _ _ => false
  | .badType _ _ => false

/-- The walk over a listing raises no I/O error. -/
def entriesWalkOk (es : List FSEntry) : Bool :=
  match es with
  | [] => true
  | en :: rest => entryWalkOk en && entriesWalkOk rest

end

/-- The whole walk from the root raises no I/O error (the root must be
a listable directory; its own name is never checked). -/
def rootWalkOk (root : FSEntry) : Bool :=
  match root with
  | .dir _ es => entriesWalkOk es
  | _ => false

/-- Visible file chains of the root. -/
def rootChains (root : FSEntry) : List (List Bytes × Except IOErr Bytes) :=
  match root with
  | .dir _ es => entriesChains es
  | _ => []

/-- All file chains of the root. -/
def rootAllChains (root : FSEntry) : List (List Bytes × Except IOErr Bytes) :=
  match root with
  | .dir _ es => entriesAllChains es
  | _ => []

/-- A well-formed entry name: non-empty and free of the separator,
as every `file_name()` returned by the OS is. -/
def goodName (n : Bytes) : Bool := n ≠ [] && !n.contains 47

/-- No duplicate names in one listing (what a real directory
guarantees). -/
def nodupNames : List Bytes → Bool
  | [] => true
  | n :: ns => !ns.contains n && nodupNames ns

mutual

/-- Well-formedness of one entry: its name is a good name and its
descendants are well-formed. -/
def entryWF (en : FSEntry) : Bool :=
  goodName en.name &&
  match en with
  | .dir _ es => entriesWF es
  | _ => true

/-- Well-formedness of a listing: the names are pairwise distinct and
every entry is well-formed. -/
def entriesWF (es : List FSEntry) : Bool :=
  nodupNames (es.map FSEntry.name) &&
  match es with
  | [] => true
  | en :: rest => entryWF en && entriesWF rest

end

/-- Well-formedness of the root: a directory with a well-formed
listing (the name of the root itself is never used by the walk). -/
def rootWF (root : FSEntry) : Bool :=
  match root with
  | .dir _ es => entriesWF es
  | _ => false

/-- The relative path of a chain of names: the names joined by the
separator. -/
def sepJoin : List Bytes → Bytes
  | [] => []
  | [n] => n
  | n :: rest => n ++ 47 :: sepJoin rest

/-- The absolute path of a chain: the root path joined with each name
in turn, exactly as the walk builds entry paths. -/
def joinList (p : Bytes) (ns : List Bytes) : Bytes := ns.foldl pathJoin p

/-- Parsing of one document line, the pure part of `checkLine`:
the hex digest before the first delimiter and the remainder as the
relative path. -/
def parseLine (line : Bytes) : Option (Bytes × Bytes) :=
  match splitOnceSep 32 line with
  | some (hashHex, file_path) =>
    match fromHex hashHex with
    | some old_hash => some (old_hash, file_path)
    | none => none
  | none => none

/-- Parsing of a list of lines, all of which must be well-formed. -/
def parseLinesList : List Bytes → Option (List (Bytes × Bytes))
  | [] => some []
  | l :: ls =>
    match parseLine l, parseLinesList ls with
    | some e, some es => some (e :: es)
    | _, _ => none

/-- Parsing of a whole document with the line splitting and hex
decoding of the validator. -/
def parseDoc (data : Bytes) : Option (List (Bytes × Bytes)) :=
  parseLinesList (splitLines data)

/-- Whether a parsed (digest, relative path) entry fails validation:
the file is missing, or it is readable and re-hashes to a different
digest.  An I/O error is not a failure, it aborts the run instead. -/
def lineFails (H : Bytes → Bytes) (dir_path : Bytes) (disk : Bytes → FileStatus)
    (entry : Bytes × Bytes) : Bool :=
  match disk (pathJoin dir_path entry.2) with
  | .absent => true
  | .present (.ok data) => !(entry.1 == H data)
  | .present (.error _) => false
  | .statErr _ => false

/-- Modelled from the spec: byte-lexicographic order on relative
paths, the order the specification asserts for record sequences
(sections 3 and 8 of spec.md).  To be compared against the order the
code actually uses. -/
def byteLexLe : Bytes → Bytes → Bool
  | [], _ => true
  | _ :: _, [] => false
  | a :: as, b :: bs => if a = b then byteLexLe as bs else decide (a < b)

/-- A list of byte strings in (spec) byte-lexicographic order. -/
def byteLexSorted : List Bytes → Bool
  | [] => true
  | [_] => true
  | a :: b :: rest => byteLexLe a b && byteLexSorted (b :: rest)

/-- A list of byte strings in the path order actually used by the
code. -/
def pathSorted : List Bytes → Bool
  | [] => true
  | [_] => true
  | a :: b :: rest => pathLe a b && pathSorted (b :: rest)

/-- The `FileRef` a visible chain denotes, for a given root path. -/
def chainRef (dp : Bytes) (c : List Bytes × Except IOErr Bytes) : FileRef :=
  ⟨joinList dp c.1, c.2⟩

/-- The record a readable discovered file is turned into (the success
branch of `hashOneFile`; the error branch never yields a record). -/
def recordOf (H : Bytes → Bytes) (stripLen : Nat) (f : FileRef) : HashedFile :=
  match f.content with
  | .ok data => ⟨H data, oi_vei false (f.path.drop stripLen), data.length⟩
  | .error _ => ⟨[], [], 0⟩

/-- The per-file payload a successful per-line check contributes. -/
def okPart : Except IOErr (Option Bytes) → Option Bytes
  | .ok o => o
  | .error _ => none

/-- A disk answer that raises no I/O error (the file is either
missing, or present and readable). -/
def ioFree : FileStatus → Bool
  | .absent => true
  | .present (.ok _) => true
  | .present (.error _) => false
  | .statErr _ => false

/-- All contents beneath the root that the walk will collect are
readable. -/
def rootReadOk (root : FSEntry) : Bool :=
  (rootChains root).all (fun c => c.2.isOk)

/-- A digest as `blake3::Hash` stores it: 32 bytes. -/
def goodDigest (h : Bytes) : Bool := h.length = 32 && h.all (fun b => b < 256)

/-! Theorems.  General lemmas first, then one theorem per claim (with
its witness or counterexample where required). -/

theorem validate_data_eq_runLines (H : Bytes → Bytes) (dp data : Bytes)
    (disk : Bytes → FileStatus) :
    validate_data H dp data disk =
      match runLines (checkLine H (oi_vei false dp) disk) (splitLines data) with
      | .error e => .error e
      | .ok failed =>
        .ok (match failed.length with
             | 0 => none
             | _ => some failed) := rfl

theorem runLines_cons_error (g : Bytes → Except IOErr (Option Bytes)) (l : Bytes)
    (ls : List Bytes) (e : IOErr) (h : g l = .error e) :
    runLines g (l :: ls) = .error e := by
  simp [runLines, h]

/-- C10: the validator reinterprets the raw document bytes as a string
with no UTF-8 check (`String::from_utf8_unchecked`), so it is defined
exactly on valid UTF-8 documents; there the parse and the whole run
are total (`validate_data` is a total function of the model), and an
invalid document is outside the domain of the unsafe reinterpretation
rather than being turned into a format error. -/
theorem claim10_utf8_domain (H : Bytes → Bytes) (dp data : Bytes)
    (disk : Bytes → FileStatus) :
    (validUTF8 data = true →
       validate_data_raw H dp data disk = some (validate_data H dp data disk)) ∧
    (validUTF8 data = false → validate_data_raw H dp data disk = none) := by
  constructor <;> intro h <;> simp [validate_data_raw, h]

/-- Witness for C10: a concrete valid document is processed, a
concrete invalid one (a lone continuation byte) is outside the
domain. -/
theorem claim10_utf8_domain_witness :
    validate_data_raw (fun _ => List.replicate 32 0) [114] [104, 105]
        (fun _ => FileStatus.absent)
      = some (validate_data (fun _ => List.replicate 32 0) [114] [104, 105]
        (fun _ => FileStatus.absent)) ∧
    validate_data_raw (fun _ => List.replicate 32 0) [114] [128]
        (fun _ => FileStatus.absent) = none :=
  ⟨(claim10_utf8_domain (fun _ => List.replicate 32 0) [114] [104, 105]
      (fun _ => FileStatus.absent)).1 (by decide),
   (claim10_utf8_domain (fun _ => List.replicate 32 0) [114] [128]
      (fun _ => FileStatus.absent)).2 (by decide)⟩

/-- Counterexample for C7: on a document whose only line has no
delimiter, validation aborts with a NotFound-kind error, not with the
generic InvalidData kind the claim asserts for both malformed-line
cases. -/
theorem claim7_counterexample :
    validate_data (fun _ => List.replicate 32 0) [114] [120, 10]
        (fun _ => FileStatus.absent) = .error ⟨ErrKind.notFound, 0⟩ ∧
    ErrKind.notFound ≠ ErrKind.invalidData := ⟨by decide, by decide⟩

theorem hexVal_hexDigit (x : Nat) (h : x < 16) : hexVal (hexDigit x) = some x := by
  unfold hexVal hexDigit
  split_ifs <;> simp_all <;> omega

theorem hexDigit_ge (x : Nat) : 48 ≤ hexDigit x := by
  unfold hexDigit
  split_ifs <;> omega

theorem toHex_mem_ge (h : Bytes) (x : Nat) (hx : x ∈ toHex h) : 48 ≤ x := by
  simp [toHex] at hx
  obtain ⟨b, _, hb⟩ := hx
  rcases hb with hb | hb <;> rw [hb] <;> exact hexDigit_ge _

theorem toHex_length (h : Bytes) : (toHex h).length = 2 * h.length := by
  induction h with
  | nil => rfl
  | cons b t ih => simp [toHex] at ih ⊢; omega

theorem fromHexPairs_toHex (h : Bytes) (hb : ∀ b ∈ h, b < 256) :
    fromHexPairs (toHex h) = some h := by
  induction h with
  | nil => rfl
  | cons b t ih =>
    have hb0 : b < 256 := hb b (by simp)
    have hdiv : b / 16 < 16 := by omega
    have hmod : b % 16 < 16 := by omega
    have ht : fromHexPairs (toHex t) = some t := ih (fun x hx => hb x (by simp [hx]))
    simp only [toHex, List.flatMap_cons]
    show fromHexPairs (hexDigit (b / 16) :: hexDigit (b % 16) :: toHex t) = some (b :: t)
    rw [fromHexPairs, hexVal_hexDigit _ hdiv, hexVal_hexDigit _ hmod, ht]
    simp
    omega

theorem fromHex_toHex (h : Bytes) (hg : goodDigest h = true) :
    fromHex (toHex h) = some h := by
  simp [goodDigest] at hg
  rw [fromHex, if_pos, fromHexPairs_toHex h hg.2]
  rw [toHex_length, hg.1]

theorem splitOnceSep_append (sep : Nat) (a b : Bytes) (ha : sep ∉ a) :
    splitOnceSep sep (a ++ sep :: b) = some (a, b) := by
  induction a with
  | nil => simp [splitOnceSep]
  | cons x xs ih =>
    have hx : x ≠ sep := by intro hc; exact ha (by simp [hc])
    have := ih (fun hc => ha (by simp [hc]))
    simp [splitOnceSep, hx, this]

theorem splitNL_ne_nil (l : Bytes) : splitNL l ≠ [] := by
  induction l with
  | nil => simp [splitNL]
  | cons b rest ih =>
    by_cases hb : b = 10
    · simp [splitNL, hb]
    · simp only [splitNL, if_neg hb]
      cases h : splitNL rest with
      | nil => simp
      | cons p ps => simp

theorem splitNL_append (line rest : Bytes) (h10 : 10 ∉ line) :
    splitNL (line ++ 10 :: rest) = line :: splitNL rest := by
  induction line with
  | nil => simp [splitNL]
  | cons b bl ih =>
    have hb : b ≠ 10 := by intro hc; exact h10 (by simp [hc])
    have hbl := ih (fun hc => h10 (by simp [hc]))
    simp only [List.cons_append, splitNL, if_neg hb, List.append_eq]
    rw [hbl]

theorem splitLines_append (line rest : Bytes) (h10 : 10 ∉ line) :
    splitLines (line ++ 10 :: rest) = stripCR line :: splitLines rest := by
  rw [splitLines, splitNL_append line rest h10, splitLines]
  cases h : splitNL rest with
  | nil => exact absurd h (splitNL_ne_nil rest)
  | cons s ss => rfl

theorem stripCR_of_ne (l : Bytes) (h : l.getLast? ≠ some 13) : stripCR l = l := by
  rw [stripCR, if_neg h]

theorem parseLine_serialized (h p : Bytes) (hg : goodDigest h = true) (hp : 32 ∉ p) :
    parseLine (toHex h ++ 32 :: p) = some (h, p) := by
  have h32 : 32 ∉ toHex h := fun hc => by have := toHex_mem_ge h 32 hc; omega
  simp [parseLine, splitOnceSep_append 32 (toHex h) p h32, fromHex_toHex h hg]

theorem serialize_foldl_init (files : List HashedFile) (init : Bytes) :
    files.foldl (fun buf f => buf ++ toHex f.hash ++ 32 :: f.path ++ [10]) init =
      init ++ (files.map (fun f => toHex f.hash ++ 32 :: f.path ++ [10])).flatten := by
  induction files generalizing init with
  | nil => simp
  | cons f t ih =>
    rw [List.foldl_cons, ih, List.map_cons, List.flatten_cons]
    simp [List.append_assoc]

theorem serialize_eq_flatten (files : List HashedFile) :
    serialize_hashed_files files =
      (files.map (fun f => toHex f.hash ++ 32 :: f.path ++ [10])).flatten := by
  rw [serialize_hashed_files, serialize_foldl_init]
  simp

/-- C5 (amended): serializing a record sequence and re-parsing it with
the validator line splitting and hex decoding reproduces exactly the
(digest, path) pairs, for digests of the 32-byte shape `blake3::Hash`
guarantees and paths that contain neither the delimiter nor a line
feed and do not end with a carriage return.  (The trailing carriage
return restriction is what the claim misses; without it the parsed
path loses its final byte, see the counterexample.) -/
theorem claim5_roundtrip (files : List HashedFile)
    (hd : ∀ f ∈ files, goodDigest f.hash = true)
    (hp : ∀ f ∈ files, 32 ∉ f.path ∧ 10 ∉ f.path ∧ f.path.getLast? ≠ some 13) :
    parseDoc (serialize_hashed_files files) =
      some (files.map (fun f => (f.hash, f.path))) := by
  rw [parseDoc, serialize_eq_flatten]
  induction files with
  | nil => rfl
  | cons f t ih =>
    obtain ⟨hp32, hp10, hp13⟩ := hp f (by simp)
    have hgf := hd f (by simp)
    have hline10 : 10 ∉ toHex f.hash ++ 32 :: f.path := by
      intro hc
      rcases List.mem_append.1 hc with hc | hc
      · have := toHex_mem_ge _ 10 hc; omega
      · rcases List.mem_cons.1 hc with hc | hc
        · omega
        · exact hp10 hc
    have hlast : (toHex f.hash ++ 32 :: f.path).getLast? ≠ some 13 := by
      rw [List.getLast?_append_of_ne_nil _ (by simp)]
      cases hpa : f.path with
      | nil => simp
      | cons a l =>
        rw [List.getLast?_cons_cons]
        rw [hpa] at hp13
        exact hp13
    have harr : (f :: t).map (fun f => toHex f.hash ++ 32 :: f.path ++ [10]) =
        (toHex f.hash ++ 32 :: f.path ++ [10]) :: t.map (fun f => toHex f.hash ++ 32 :: f.path ++ [10]) := by
      simp
    rw [harr, List.flatten_cons]
    have hassoc : toHex f.hash ++ 32 :: f.path ++ [10] ++
        (t.map (fun f => toHex f.hash ++ 32 :: f.path ++ [10])).flatten =
        (toHex f.hash ++ 32 :: f.path) ++ 10 ::
          (t.map (fun f => toHex f.hash ++ 32 :: f.path ++ [10])).flatten := by
      simp
    rw [hassoc, splitLines_append _ _ hline10, stripCR_of_ne _ hlast]
    rw [parseLinesList, parseLine_serialized f.hash f.path hgf hp32]
    rw [ih (fun g hg => hd g (by simp [hg])) (fun g hg => hp g (by simp [hg]))]
    simp

/-- Witness for C5 (amended) at a concrete one-record sequence. -/
theorem claim5_roundtrip_witness :
    parseDoc (serialize_hashed_files [⟨List.replicate 32 0, [97], 1⟩]) =
      some [(List.replicate 32 0, [97])] :=
  claim5_roundtrip [⟨List.replicate 32 0, [97], 1⟩] (by decide) (by decide)

/-- Counterexample for C5: the path 97 13 (a followed by a carriage
return) contains neither the delimiter 32 nor the line feed 10, yet
the round trip drops its final byte, because the validator line
splitting removes a carriage return standing directly before the
terminating line feed. -/
theorem claim5_counterexample :
    (32 ∉ ([97, 13] : Bytes)) ∧ (10 ∉ ([97, 13] : Bytes)) ∧
    parseDoc (serialize_hashed_files [⟨List.replicate 32 0, [97, 13], 0⟩])
      ≠ some [(List.replicate 32 0, [97, 13])] ∧
    parseDoc (serialize_hashed_files [⟨List.replicate 32 0, [97, 13], 0⟩])
      = some [(List.replicate 32 0, [97])] :=
  ⟨by decide, by decide, by decide, by decide⟩

theorem sepLt_trans {a b c : Nat} (h1 : sepLt a b = true) (h2 : sepLt b c = true) :
    sepLt a c = true := by
  simp [sepLt] at h1 h2 ⊢
  omega

theorem sepLt_asymm {a b : Nat} (h1 : sepLt a b = true) (h2 : sepLt b a = true) : False := by
  simp [sepLt] at h1 h2
  omega

theorem sepLt_total {a b : Nat} (h : a ≠ b) : sepLt a b = true ∨ sepLt b a = true := by
  simp [sepLt]
  omega

theorem pathLe_refl (l : Bytes) : pathLe l l = true := by
  induction l with
  | nil => rfl
  | cons b t ih => simp [pathLe, ih]

theorem pathLe_total (x y : Bytes) : pathLe x y = true ∨ pathLe y x = true := by
  induction x generalizing y with
  | nil => left; rfl
  | cons a as ih =>
    cases y with
    | nil => right; rfl
    | cons b bs =>
      by_cases hab : a = b
      · subst hab
        simp only [pathLe, if_pos rfl]
        exact ih bs
      · simp only [pathLe, if_neg hab, if_neg (Ne.symm hab)]
        exact sepLt_total hab

theorem pathLe_antisymm {x y : Bytes} (h1 : pathLe x y = true) (h2 : pathLe y x = true) :
    x = y := by
  induction x generalizing y with
  | nil =>
    cases y with
    | nil => rfl
    | cons b bs => simp [pathLe] at h2
  | cons a as ih =>
    cases y with
    | nil => simp [pathLe] at h1
    | cons b bs =>
      by_cases hab : a = b
      · subst hab
        simp only [pathLe, if_pos rfl] at h1 h2
        rw [ih h1 h2]
      · rw [pathLe, if_neg hab] at h1
        rw [pathLe, if_neg (Ne.symm hab)] at h2
        exact absurd h1 (by intro _; exact sepLt_asymm h1 h2)

theorem pathLe_trans {x y z : Bytes} (h1 : pathLe x y = true) (h2 : pathLe y z = true) :
    pathLe x z = true := by
  induction x generalizing y z with
  | nil => rfl
  | cons a as ih =>
    cases y with
    | nil => simp [pathLe] at h1
    | cons b bs =>
      cases z with
      | nil => simp [pathLe] at h2
      | cons c cs =>
        by_cases hab : a = b <;> by_cases hbc : b = c
        · subst hab; subst hbc
          rw [pathLe, if_pos rfl] at h1 h2 ⊢
          exact ih h1 h2
        · subst hab
          rw [pathLe, if_neg hbc] at h2 ⊢
          exact h2
        · subst hbc
          rw [pathLe, if_neg hab] at h1 ⊢
          exact h1
        · rw [pathLe, if_neg hab] at h1
          rw [pathLe, if_neg hbc] at h2
          have hac : a ≠ c := by
            intro he
            subst he
            exact sepLt_asymm h1 h2
          rw [pathLe, if_neg hac]
          exact sepLt_trans h1 h2

/-- A common left part never influences the path comparison. -/
theorem pathLe_append_left (p x y : Bytes) : pathLe (p ++ x) (p ++ y) = pathLe x y := by
  induction p with
  | nil => rfl
  | cons a t ih => simp [pathLe, ih]

instance : IsTotal FileRef refLe := ⟨fun f g => pathLe_total f.path g.path⟩

instance : IsTrans FileRef refLe := ⟨fun _ _ _ h1 h2 => pathLe_trans h1 h2⟩

theorem sortPaths_perm (l : List FileRef) : (sortPaths l).Perm l :=
  List.perm_insertionSort refLe l

theorem sortPaths_sorted (l : List FileRef) : List.Sorted refLe (sortPaths l) :=
  List.sorted_insertionSort refLe l

/-- Two sorted lists of discovered files that are permutations of one
another and have pairwise distinct paths are equal. -/
theorem sorted_perm_nodup_eq (l₁ l₂ : List FileRef) (hp : l₁.Perm l₂)
    (hs₁ : List.Sorted refLe l₁) (hs₂ : List.Sorted refLe l₂)
    (hn : (l₁.map FileRef.path).Nodup) : l₁ = l₂ := by
  have hn₂ : (l₂.map FileRef.path).Nodup := ((hp.map FileRef.path).nodup_iff).1 hn
  have hpn₁ : List.Pairwise (fun f g : FileRef => f.path ≠ g.path) l₁ :=
    List.pairwise_map.1 hn
  have hpn₂ : List.Pairwise (fun f g : FileRef => f.path ≠ g.path) l₂ :=
    List.pairwise_map.1 hn₂
  have hstrict₁ : List.Pairwise (fun f g : FileRef => refLe f g ∧ f.path ≠ g.path) l₁ :=
    hs₁.and hpn₁
  have hstrict₂ : List.Pairwise (fun f g : FileRef => refLe f g ∧ f.path ≠ g.path) l₂ :=
    hs₂.and hpn₂
  have anti : IsAntisymm FileRef (fun f g => refLe f g ∧ f.path ≠ g.path) :=
    ⟨fun f g h1 h2 => absurd (pathLe_antisymm h1.1 h2.1) h1.2⟩
  exact @List.eq_of_perm_of_sorted _ _ anti _ _ hp hstrict₁ hstrict₂

/-- Counterexample for C3: in the directory r containing the file a.c
and the folder a with the file b inside, the produced record sequence
is a/b then a.c (paths are compared componentwise, and the component a
precedes a.c), which is not in byte-lexicographic order, since the dot
46 is below the separator 47. -/
theorem claim3_counterexample :
    (hash_directory (fun _ => List.replicate 32 0) [114]
        (.dir [] [.file [97, 46, 99] (.ok []), .dir [97] [.file [98] (.ok [])]])).map
      (fun d => d.files.map HashedFile.path) = .ok [[97, 47, 98], [97, 46, 99]] ∧
    byteLexSorted [[97, 47, 98], [97, 46, 99]] = false :=
  ⟨by decide, by decide⟩

theorem entriesFiles_cons (p : Bytes) (en : FSEntry) (rest : List FSEntry) :
    entriesFiles p (en :: rest) =
      match entryFiles p en with
      | .error e => .error e
      | .ok fs₁ =>
        match entriesFiles p rest with
        | .error e => .error e
        | .ok fs₂ => .ok (fs₁ ++ fs₂) := rfl

theorem entryFiles_file (p n : Bytes) (c : Except IOErr Bytes) :
    entryFiles p (.file n c) =
      if hiddenName n then .ok [] else .ok [⟨pathJoin p n, c⟩] := rfl

theorem entryFiles_dir (p n : Bytes) (es : List FSEntry) :
    entryFiles p (.dir n es) =
      if hiddenName n then .ok [] else entriesFiles (pathJoin p n) es := rfl

theorem entryFiles_other (p n : Bytes) :
    entryFiles p (.other n) = if hiddenName n then .ok [] else .ok [] := rfl

theorem entryFiles_badDir (p n : Bytes) (e : IOErr) :
    entryFiles p (.badDir n e) =
      if hiddenName n then .ok [] else .error e := rfl

theorem entryFiles_badType (p n : Bytes) (e : IOErr) :
    entryFiles p (.badType n e) =
      if hiddenName n then .ok [] else .error e := rfl

theorem entryChains_file (n : Bytes) (c : Except IOErr Bytes) :
    entryChains (.file n c) = if hiddenName n then [] else [([n], c)] := rfl

theorem entryChains_dir (n : Bytes) (es : List FSEntry) :
    entryChains (.dir n es) =
      if hiddenName n then []
      else (entriesChains es).map (fun q => (n :: q.1, q.2)) := rfl

theorem entriesChains_cons (en : FSEntry) (rest : List FSEntry) :
    entriesChains (en :: rest) = entryChains en ++ entriesChains rest := rfl

theorem entryWalkOk_dir (n : Bytes) (es : List FSEntry) :
    entryWalkOk (.dir n es) = (hiddenName n || entriesWalkOk es) := rfl

theorem entriesWalkOk_cons (en : FSEntry) (rest : List FSEntry) :
    entriesWalkOk (en :: rest) = (entryWalkOk en && entriesWalkOk rest) := rfl

theorem entryAllChains_dir (n : Bytes) (es : List FSEntry) :
    entryAllChains (.dir n es) =
      (entriesAllChains es).map (fun q => (n :: q.1, q.2)) := rfl

theorem entriesAllChains_cons (en : FSEntry) (rest : List FSEntry) :
    entriesAllChains (en :: rest) = entryAllChains en ++ entriesAllChains rest := rfl

theorem entriesWF_cons (en : FSEntry) (rest : List FSEntry) :
    entriesWF (en :: rest) =
      (nodupNames ((en :: rest).map FSEntry.name) && (entryWF en && entriesWF rest)) := rfl

theorem entryWF_dir (n : Bytes) (es : List FSEntry) :
    entryWF (.dir n es) = (goodName n && entriesWF es) := rfl

mutual

/-- When the walk beneath an entry raises no error, it collects
exactly the visible chains, rooted at the current path. -/
theorem entryFiles_eq_chains (p : Bytes) (en : FSEntry) (h : entryWalkOk en = true) :
    entryFiles p en = .ok ((entryChains en).map (chainRef p)) := by
  cases en with
  | file n c =>
    rw [entryFiles_file, entryChains_file]
    by_cases hh : hiddenName n = true
    · rw [if_pos hh, if_pos hh]; rfl
    · rw [if_neg hh, if_neg hh]; rfl
  | dir n es =>
    rw [entryFiles_dir, entryChains_dir]
    by_cases hh : hiddenName n = true
    · rw [if_pos hh, if_pos hh]; rfl
    · rw [if_neg hh, if_neg hh]
      have hes : entriesWalkOk es = true := by
        rw [entryWalkOk_dir] at h
        simp [Bool.eq_false_iff.2 (fun hc => hh hc)] at h
        exact h
      rw [entriesFiles_eq_chains (pathJoin p n) es hes, List.map_map]
      rfl
  | other n =>
    have hc : entryChains (.other n) = if hiddenName n then [] else [] := rfl
    rw [entryFiles_other, hc]
    by_cases hh : hiddenName n = true
    · rw [if_pos hh, if_pos hh]; rfl
    · rw [if_neg hh, if_neg hh]; rfl
  | badDir n e =>
    have hh : hiddenName n = true := by
      have he : entryWalkOk (.badDir n e) = (hiddenName n || false) := rfl
      rw [he] at h
      simpa using h
    have hc : entryChains (.badDir n e) = if hiddenName n then [] else [] := rfl
    rw [entryFiles_badDir, if_pos hh, hc, if_pos hh]
    rfl
  | badType n e =>
    have hh : hiddenName n = true := by
      have he : entryWalkOk (.badType n e) = (hiddenName n || false) := rfl
      rw [he] at h
      simpa using h
    have hc : entryChains (.badType n e) = if hiddenName n then [] else [] := rfl
    rw [entryFiles_badType, if_pos hh, hc, if_pos hh]
    rfl

/-- Listing version of `entryFiles_eq_chains`. -/
theorem entriesFiles_eq_chains (p : Bytes) (es : List FSEntry)
    (h : entriesWalkOk es = true) :
    entriesFiles p es = .ok ((entriesChains es).map (chainRef p)) := by
  cases es with
  | nil => rfl
  | cons en rest =>
    rw [entriesWalkOk_cons] at h
    simp at h
    rw [entriesFiles_cons, entryFiles_eq_chains p en h.1,
      entriesFiles_eq_chains p rest h.2, entriesChains_cons]
    simp

end

mutual

/-- When the walk beneath an entry raises an error, the traversal
aborts with some error. -/
theorem entryFiles_error (p : Bytes) (en : FSEntry) (h : entryWalkOk en = false) :
    ∃ e, entryFiles p en = .error e := by
  cases en with
  | file n c =>
    exfalso
    have he : entryWalkOk (.file n c) = (hiddenName n || true) := rfl
    rw [he] at h
    simp at h
  | dir n es =>
    rw [entryWalkOk_dir] at h
    simp at h
    obtain ⟨e, he⟩ := entriesFiles_error (pathJoin p n) es h.2
    refine ⟨e, ?_⟩
    rw [entryFiles_dir, if_neg (by rw [h.1]; intro hc; cases hc)]
    exact he
  | other n =>
    exfalso
    have he : entryWalkOk (.other n) = (hiddenName n || true) := rfl
    rw [he] at h
    simp at h
  | badDir n e =>
    have he : entryWalkOk (.badDir n e) = (hiddenName n || false) := rfl
    rw [he] at h
    simp at h
    exact ⟨e, by rw [entryFiles_badDir, if_neg (by rw [h]; intro hc; cases hc)]⟩
  | badType n e =>
    have he : entryWalkOk (.badType n e) = (hiddenName n || false) := rfl
    rw [he] at h
    simp at h
    exact ⟨e, by rw [entryFiles_badType, if_neg (by rw [h]; intro hc; cases hc)]⟩

/-- Listing version of `entryFiles_error`. -/
theorem entriesFiles_error (p : Bytes) (es : List FSEntry)
    (h : entriesWalkOk es = false) :
    ∃ e, entriesFiles p es = .error e := by
  cases es with
  | nil => exact absurd h (by intro hc; cases hc)
  | cons en rest =>
    rw [entriesWalkOk_cons] at h
    cases hx : entryWalkOk en with
    | false =>
      obtain ⟨e, he⟩ := entryFiles_error p en hx
      exact ⟨e, by rw [entriesFiles_cons, he]⟩
    | true =>
      rw [hx] at h
      simp at h
      obtain ⟨e, he⟩ := entriesFiles_error p rest h
      refine ⟨e, ?_⟩
      rw [entriesFiles_cons, entryFiles_eq_chains p en hx, he]

end

mutual

/-- The visible chains are exactly the chains all of whose names are
visible: hiding is decided pointwise on the name chain, so a visible
file below a hidden folder is excluded like a hidden file. -/
theorem entryChains_eq_filter (en : FSEntry) :
    entryChains en =
      (entryAllChains en).filter (fun c => c.1.all (fun m => !hiddenName m)) := by
  cases en with
  | file n c =>
    rw [entryChains_file]
    by_cases hh : hiddenName n = true
    · rw [if_pos hh]
      have : entryAllChains (.file n c) = [([n], c)] := rfl
      rw [this]
      simp [hh]
    · rw [if_neg hh]
      have : entryAllChains (.file n c) = [([n], c)] := rfl
      rw [this]
      simp [Bool.eq_false_iff.2 hh]
  | dir n es =>
    rw [entryChains_dir, entryAllChains_dir, List.filter_map]
    by_cases hh : hiddenName n = true
    · rw [if_pos hh]
      have : ∀ c, ((fun c => c.1.all (fun m => !hiddenName m)) ∘
          (fun q : List Bytes × Except IOErr Bytes => (n :: q.1, q.2))) c = false := by
        intro c
        simp [hh]
      rw [List.filter_congr (fun c _ => this c)]
      simp
    · rw [if_neg hh, entriesChains_eq_filter es]
      have : ∀ c ∈ entriesAllChains es,
          ((fun c => c.1.all (fun m => !hiddenName m)) ∘
            (fun q : List Bytes × Except IOErr Bytes => (n :: q.1, q.2))) c =
          (fun c => c.1.all (fun m => !hiddenName m)) c := by
        intro c _
        simp [Bool.eq_false_iff.2 hh]
      rw [List.filter_congr this]
  | other n =>
    have h1 : entryChains (.other n) = if hiddenName n then [] else [] := rfl
    have h2 : entryAllChains (.other n) = [] := rfl
    rw [h1, h2]
    by_cases hh : hiddenName n = true
    · rw [if_pos hh]; rfl
    · rw [if_neg hh]; rfl
  | badDir n e =>
    have h1 : entryChains (.badDir n e) = if hiddenName n then [] else [] := rfl
    have h2 : entryAllChains (.badDir n e) = [] := rfl
    rw [h1, h2]
    by_cases hh : hiddenName n = true
    · rw [if_pos hh]; rfl
    · rw [if_neg hh]; rfl
  | badType n e =>
    have h1 : entryChains (.badType n e) = if hiddenName n then [] else [] := rfl
    have h2 : entryAllChains (.badType n e) = [] := rfl
    rw [h1, h2]
    by_cases hh : hiddenName n = true
    · rw [if_pos hh]; rfl
    · rw [if_neg hh]; rfl

/-- Listing version of `entryChains_eq_filter`. -/
theorem entriesChains_eq_filter (es : List FSEntry) :
    entriesChains es =
      (entriesAllChains es).filter (fun c => c.1.all (fun m => !hiddenName m)) := by
  cases es with
  | nil => rfl
  | cons en rest =>
    rw [entriesChains_cons, entriesAllChains_cons, List.filter_append,
      entryChains_eq_filter en, entriesChains_eq_filter rest]

end

mutual

/-- Under well-formedness every chain is a non-empty list of good
names. -/
theorem entryAllChains_names (en : FSEntry) (hwf : entryWF en = true) :
    ∀ c ∈ entryAllChains en, c.1 ≠ [] ∧ ∀ n ∈ c.1, goodName n = true := by
  cases en with
  | file n c =>
    have he : entryAllChains (.file n c) = [([n], c)] := rfl
    have hn : goodName n = true := by
      have : entryWF (.file n c) = (goodName n && true) := rfl
      rw [this] at hwf
      simpa using hwf
    rw [he]
    intro x hx
    simp at hx
    subst hx
    refine ⟨by simp, ?_⟩
    intro m hm
    simp at hm
    subst hm
    exact hn
  | dir n es =>
    rw [entryWF_dir] at hwf
    simp at hwf
    intro x hx
    rw [entryAllChains_dir] at hx
    simp at hx
    obtain ⟨a, b, hab, hx⟩ := hx
    have := entriesAllChains_names es hwf.2 (a, b) hab
    subst hx
    refine ⟨by simp, ?_⟩
    intro m hm
    simp at hm
    rcases hm with hm | hm
    · subst hm; exact hwf.1
    · exact this.2 m hm
  | other n => intro x hx; cases hx
  | badDir n e => intro x hx; cases hx
  | badType n e => intro x hx; cases hx

/-- Listing version of `entryAllChains_names`. -/
theorem entriesAllChains_names (es : List FSEntry) (hwf : entriesWF es = true) :
    ∀ c ∈ entriesAllChains es, c.1 ≠ [] ∧ ∀ n ∈ c.1, goodName n = true := by
  cases es with
  | nil => intro x hx; cases hx
  | cons en rest =>
    rw [entriesWF_cons] at hwf
    simp at hwf
    intro x hx
    rw [entriesAllChains_cons] at hx
    rcases List.mem_append.1 hx with hx | hx
    · exact entryAllChains_names en hwf.2.1 x hx
    · exact entriesAllChains_names rest hwf.2.2 x hx

end

theorem mem_of_head?_eq (l : Bytes) (a : Nat) (h : l.head? = some a) : a ∈ l := by
  cases l with
  | nil => cases h
  | cons b t =>
    simp at h
    simp [h]

theorem mem_of_getLast?_eq (l : Bytes) (a : Nat) (h : l.getLast? = some a) : a ∈ l := by
  induction l with
  | nil => cases h
  | cons b t ih =>
    cases t with
    | nil => simp at h; simp [h]
    | cons c r =>
      rw [List.getLast?_cons_cons] at h
      simp [ih h]

theorem goodName_facts (n : Bytes) (h : goodName n = true) : n ≠ [] ∧ 47 ∉ n := by
  rw [goodName] at h
  simp at h
  exact h

theorem goodName_head (n : Bytes) (h : goodName n = true) : n.head? ≠ some 47 := by
  obtain ⟨h1, h2⟩ := goodName_facts n h
  intro hc
  exact h2 (mem_of_head?_eq n 47 hc)

theorem goodName_getLast (n : Bytes) (h : goodName n = true) : n.getLast? ≠ some 47 := by
  obtain ⟨h1, h2⟩ := goodName_facts n h
  intro hc
  exact h2 (mem_of_getLast?_eq n 47 hc)

theorem nodupNames_cons (n : Bytes) (ns : List Bytes) (h : nodupNames (n :: ns) = true) :
    n ∉ ns ∧ nodupNames ns = true := by
  rw [nodupNames] at h
  simp at h
  obtain ⟨h1, h2⟩ := h
  exact ⟨by simpa using h1, h2⟩

/-- Every chain below one entry starts with that entry name. -/
theorem entryChains_head (en : FSEntry) :
    ∀ c ∈ entryChains en, ∃ t, c.1 = en.name :: t := by
  cases en with
  | file n c =>
    rw [entryChains_file]
    by_cases hh : hiddenName n = true
    · rw [if_pos hh]; intro x hx; cases hx
    · rw [if_neg hh]
      intro x hx
      simp at hx
      subst hx
      exact ⟨[], rfl⟩
  | dir n es =>
    rw [entryChains_dir]
    by_cases hh : hiddenName n = true
    · rw [if_pos hh]; intro x hx; cases hx
    · rw [if_neg hh]
      intro x hx
      simp at hx
      obtain ⟨a, b, _, hx⟩ := hx
      subst hx
      exact ⟨a, rfl⟩
  | other n =>
    have h1 : entryChains (.other n) = if hiddenName n then [] else [] := rfl
    rw [h1]
    intro x hx
    by_cases hh : hiddenName n = true
    · rw [if_pos hh] at hx; cases hx
    · rw [if_neg hh] at hx; cases hx
  | badDir n e =>
    have h1 : entryChains (.badDir n e) = if hiddenName n then [] else [] := rfl
    rw [h1]
    intro x hx
    by_cases hh : hiddenName n = true
    · rw [if_pos hh] at hx; cases hx
    · rw [if_neg hh] at hx; cases hx
  | badType n e =>
    have h1 : entryChains (.badType n e) = if hiddenName n then [] else [] := rfl
    rw [h1]
    intro x hx
    by_cases hh : hiddenName n = true
    · rw [if_pos hh] at hx; cases hx
    · rw [if_neg hh] at hx; cases hx

/-- Every chain of a listing starts with the name of one of its
entries. -/
theorem entriesChains_origin (es : List FSEntry) :
    ∀ c ∈ entriesChains es, ∃ en, en ∈ es ∧ ∃ t, c.1 = en.name :: t := by
  induction es with
  | nil => intro x hx; cases hx
  | cons en rest ih =>
    intro x hx
    rw [entriesChains_cons] at hx
    rcases List.mem_append.1 hx with hx | hx
    · obtain ⟨t, ht⟩ := entryChains_head en x hx
      exact ⟨en, by simp, t, ht⟩
    · obtain ⟨en2, hen2, t, ht⟩ := ih x hx
      exact ⟨en2, by simp [hen2], t, ht⟩

mutual

/-- Under well-formedness the name chains of the visible files are
pairwise distinct. -/
theorem entryChains_fst_nodup (en : FSEntry) (hwf : entryWF en = true) :
    ((entryChains en).map (fun c => c.1)).Nodup := by
  cases en with
  | file n c =>
    rw [entryChains_file]
    by_cases hh : hiddenName n = true
    · rw [if_pos hh]; simp
    · rw [if_neg hh]; simp
  | dir n es =>
    rw [entryChains_dir]
    by_cases hh : hiddenName n = true
    · rw [if_pos hh]; simp
    · rw [if_neg hh]
      rw [entryWF_dir] at hwf
      simp at hwf
      have := entriesChains_fst_nodup es hwf.2
      rw [List.map_map]
      have he : ((fun c : List Bytes × Except IOErr Bytes => c.1) ∘
          (fun q : List Bytes × Except IOErr Bytes => (n :: q.1, q.2))) =
          ((fun l : List Bytes => n :: l) ∘ (fun c : List Bytes × Except IOErr Bytes => c.1)) := rfl
      rw [he, ← List.map_map]
      exact this.map (fun a b hab => by simpa using hab)
  | other n =>
    have h1 : entryChains (.other n) = if hiddenName n then [] else [] := rfl
    rw [h1]
    by_cases hh : hiddenName n = true
    · rw [if_pos hh]; simp
    · rw [if_neg hh]; simp
  | badDir n e =>
    have h1 : entryChains (.badDir n e) = if hiddenName n then [] else [] := rfl
    rw [h1]
    by_cases hh : hiddenName n = true
    · rw [if_pos hh]; simp
    · rw [if_neg hh]; simp
  | badType n e =>
    have h1 : entryChains (.badType n e) = if hiddenName n then [] else [] := rfl
    rw [h1]
    by_cases hh : hiddenName n = true
    · rw [if_pos hh]; simp
    · rw [if_neg hh]; simp

/-- Listing version of `entryChains_fst_nodup`. -/
theorem entriesChains_fst_nodup (es : List FSEntry) (hwf : entriesWF es = true) :
    ((entriesChains es).map (fun c => c.1)).Nodup := by
  cases es with
  | nil => simp [entriesChains]
  | cons en rest =>
    rw [entriesWF_cons] at hwf
    simp at hwf
    obtain ⟨hnod, hwf1, hwf2⟩ := hwf
    rw [entriesChains_cons, List.map_append]
    refine List.Nodup.append (entryChains_fst_nodup en hwf1)
      (entriesChains_fst_nodup rest hwf2) ?_
    intro x hx1 hx2
    obtain ⟨c1, hc1, hfx1⟩ := List.mem_map.1 hx1
    obtain ⟨c2, hc2, hfx2⟩ := List.mem_map.1 hx2
    obtain ⟨t1, ht1⟩ := entryChains_head en c1 hc1
    obtain ⟨en2, hen2, t2, ht2⟩ := entriesChains_origin rest c2 hc2
    have hxeq : en.name :: t1 = en2.name :: t2 := by
      rw [← ht1, ← ht2, hfx1, hfx2]
    have hname : en.name = en2.name := by injection hxeq
    obtain ⟨hni, _⟩ := nodupNames_cons en.name (rest.map FSEntry.name) hnod
    exact hni (by rw [hname]; exact List.mem_map_of_mem FSEntry.name hen2)

end

theorem pathJoin_clean (base n : Bytes) (hb1 : base ≠ []) (hb2 : base.getLast? ≠ some 47)
    (hn : goodName n = true) : pathJoin base n = base ++ 47 :: n := by
  rw [pathJoin, if_neg (goodName_head n hn), if_neg hb1, if_neg hb2]

theorem joinList_clean (base : Bytes) (ns : List Bytes) (hb1 : base ≠ [])
    (hb2 : base.getLast? ≠ some 47) (hns : ns ≠ [])
    (hgood : ∀ n ∈ ns, goodName n = true) :
    joinList base ns = base ++ 47 :: sepJoin ns := by
  induction ns generalizing base with
  | nil => exact absurd rfl hns
  | cons n rest ih =>
    have hgn := hgood n (by simp)
    have hj := pathJoin_clean base n hb1 hb2 hgn
    cases rest with
    | nil =>
      show pathJoin base n = base ++ 47 :: sepJoin [n]
      rw [hj]
      rfl
    | cons m r =>
      obtain ⟨hne, hmem⟩ := goodName_facts n hgn
      have hb1' : pathJoin base n ≠ [] := by rw [hj]; simp
      have hb2' : (pathJoin base n).getLast? ≠ some 47 := by
        rw [hj, List.getLast?_append_of_ne_nil _ (by simp)]
        cases n with
        | nil => exact absurd rfl hne
        | cons a t =>
          rw [List.getLast?_cons_cons]
          exact goodName_getLast _ hgn
      have hrec := ih (pathJoin base n) hb1' hb2' (by simp)
        (fun x hx => hgood x (by simp [hx]))
      show joinList (pathJoin base n) (m :: r) = base ++ 47 :: sepJoin (n :: m :: r)
      rw [hrec, hj]
      have hsep : sepJoin (n :: m :: r) = n ++ 47 :: sepJoin (m :: r) := rfl
      rw [hsep]
      simp

theorem joinList_decomp (dp : Bytes) (ns : List Bytes) (hns : ns ≠ [])
    (hgood : ∀ n ∈ ns, goodName n = true) :
    joinList dp ns =
      (if dp = [] then [] else if dp.getLast? = some 47 then dp else dp ++ [47]) ++
        sepJoin ns := by
  cases ns with
  | nil => exact absurd rfl hns
  | cons n rest =>
    have hgn := hgood n (by simp)
    obtain ⟨hne, hmem⟩ := goodName_facts n hgn
    by_cases h1 : dp = []
    · subst h1
      rw [if_pos rfl]
      have hpj : pathJoin [] n = n := by
        rw [pathJoin, if_neg (goodName_head n hgn), if_pos rfl]
      cases rest with
      | nil =>
        show pathJoin [] n = [] ++ sepJoin [n]
        rw [hpj]
        rfl
      | cons m r =>
        show joinList (pathJoin [] n) (m :: r) = [] ++ sepJoin (n :: m :: r)
        rw [hpj, joinList_clean n (m :: r) hne (goodName_getLast n hgn) (by simp)
          (fun x hx => hgood x (by simp [hx]))]
        rfl
    · by_cases h2 : dp.getLast? = some 47
      · rw [if_neg h1, if_pos h2]
        have hpj : pathJoin dp n = dp ++ n := by
          rw [pathJoin, if_neg (goodName_head n hgn), if_neg h1, if_pos h2]
        cases rest with
        | nil =>
          show pathJoin dp n = dp ++ sepJoin [n]
          rw [hpj]
          rfl
        | cons m r =>
          have hb1' : dp ++ n ≠ [] := by simp [h1]
          have hb2' : (dp ++ n).getLast? ≠ some 47 := by
            rw [List.getLast?_append_of_ne_nil _ hne]
            exact goodName_getLast n hgn
          show joinList (pathJoin dp n) (m :: r) = dp ++ sepJoin (n :: m :: r)
          rw [hpj, joinList_clean (dp ++ n) (m :: r) hb1' hb2' (by simp)
            (fun x hx => hgood x (by simp [hx]))]
          have hsep : sepJoin (n :: m :: r) = n ++ 47 :: sepJoin (m :: r) := rfl
          rw [hsep]
          simp
      · rw [if_neg h1, if_neg h2]
        rw [joinList_clean dp (n :: rest) h1 h2 (by simp) hgood]
        simp

theorem clean_sep_unique (n₁ n₂ t₁ t₂ : Bytes) (h1 : 47 ∉ n₁) (h2 : 47 ∉ n₂)
    (he : n₁ ++ 47 :: t₁ = n₂ ++ 47 :: t₂) : n₁ = n₂ ∧ t₁ = t₂ := by
  induction n₁ generalizing n₂ with
  | nil =>
    cases n₂ with
    | nil => simp at he; simp [he]
    | cons b bs =>
      simp at he
      exact absurd (by simp [← he.1] : (47 : Nat) ∈ b :: bs) h2
  | cons a as ih =>
    cases n₂ with
    | nil =>
      simp at he
      exact absurd (by simp [he.1] : (47 : Nat) ∈ a :: as) h1
    | cons b bs =>
      simp at he
      have := ih bs (fun hc => h1 (by simp [hc])) (fun hc => h2 (by simp [hc])) he.2
      exact ⟨by simp [he.1, this.1], this.2⟩

theorem sepJoin_inj (ns₁ ns₂ : List Bytes) (h1 : ∀ n ∈ ns₁, goodName n = true)
    (h2 : ∀ n ∈ ns₂, goodName n = true) (hn1 : ns₁ ≠ []) (hn2 : ns₂ ≠ [])
    (he : sepJoin ns₁ = sepJoin ns₂) : ns₁ = ns₂ := by
  induction ns₁ generalizing ns₂ with
  | nil => exact absurd rfl hn1
  | cons n rest ih =>
    cases ns₂ with
    | nil => exact absurd rfl hn2
    | cons m rest2 =>
      obtain ⟨hnn, hnm⟩ := goodName_facts n (h1 n (by simp))
      obtain ⟨hmn, hmm⟩ := goodName_facts m (h2 m (by simp))
      cases rest with
      | nil =>
        cases rest2 with
        | nil =>
          have : n = m := he
          rw [this]
        | cons m2 r2 =>
          exfalso
          have hs : sepJoin (m :: m2 :: r2) = m ++ 47 :: sepJoin (m2 :: r2) := rfl
          have hn : sepJoin [n] = n := rfl
          rw [hn, hs] at he
          exact hnm (by rw [he]; simp)
      | cons n2 r1 =>
        cases rest2 with
        | nil =>
          exfalso
          have hs : sepJoin (n :: n2 :: r1) = n ++ 47 :: sepJoin (n2 :: r1) := rfl
          have hm : sepJoin [m] = m := rfl
          rw [hs, hm] at he
          exact hmm (by rw [← he]; simp)
        | cons m2 r2 =>
          have hs1 : sepJoin (n :: n2 :: r1) = n ++ 47 :: sepJoin (n2 :: r1) := rfl
          have hs2 : sepJoin (m :: m2 :: r2) = m ++ 47 :: sepJoin (m2 :: r2) := rfl
          rw [hs1, hs2] at he
          obtain ⟨hh, ht⟩ := clean_sep_unique n m _ _ hnm hmm he
          have := ih (m2 :: r2) (fun x hx => h1 x (by simp [hx]))
            (fun x hx => h2 x (by simp [hx])) (by simp) (by simp) ht
          rw [hh, this]

theorem joinList_inj (dp : Bytes) (ns₁ ns₂ : List Bytes)
    (h1 : ∀ n ∈ ns₁, goodName n = true) (h2 : ∀ n ∈ ns₂, goodName n = true)
    (hn1 : ns₁ ≠ []) (hn2 : ns₂ ≠ [])
    (he : joinList dp ns₁ = joinList dp ns₂) : ns₁ = ns₂ := by
  rw [joinList_decomp dp ns₁ hn1 h1, joinList_decomp dp ns₂ hn2 h2] at he
  exact sepJoin_inj ns₁ ns₂ h1 h2 hn1 hn2 (List.append_cancel_left he)

theorem rootChains_clean (root : FSEntry) (hwf : rootWF root = true) :
    ∀ c ∈ rootChains root, c.1 ≠ [] ∧ ∀ n ∈ c.1, goodName n = true := by
  cases root with
  | dir n es =>
    intro c hc
    have hsub : c ∈ entriesAllChains es := by
      have := entriesChains_eq_filter es
      have hc2 : c ∈ entriesChains es := hc
      rw [this] at hc2
      exact List.mem_of_mem_filter hc2
    exact entriesAllChains_names es hwf c hsub
  | file n c => intro x hx; cases hx
  | other n => intro x hx; cases hx
  | badDir n e => intro x hx; cases hx
  | badType n e => intro x hx; cases hx

theorem rootChains_fst_nodup (root : FSEntry) (hwf : rootWF root = true) :
    ((rootChains root).map (fun c => c.1)).Nodup := by
  cases root with
  | dir n es => exact entriesChains_fst_nodup es hwf
  | file n c => exact Bool.noConfusion hwf
  | other n => exact Bool.noConfusion hwf
  | badDir n e => exact Bool.noConfusion hwf
  | badType n e => exact Bool.noConfusion hwf

theorem get_files_ok (dp : Bytes) (root : FSEntry) (h : rootWalkOk root = true) :
    get_files dp root = .ok ((rootChains root).map (chainRef dp)) := by
  cases root with
  | dir n es =>
    show entriesFiles dp es = .ok ((entriesChains es).map (chainRef dp))
    exact entriesFiles_eq_chains dp es h
  | file n c => exact Bool.noConfusion h
  | other n => exact Bool.noConfusion h
  | badDir n e => exact Bool.noConfusion h
  | badType n e => exact Bool.noConfusion h

theorem get_files_err (dp : Bytes) (root : FSEntry) (h : rootWalkOk root = false) :
    ∃ e, get_files dp root = .error e := by
  cases root with
  | dir n es => exact entriesFiles_error dp es h
  | file n c => exact ⟨notADirErr, rfl⟩
  | other n => exact ⟨notADirErr, rfl⟩
  | badDir n e => exact ⟨e, rfl⟩
  | badType n e => exact ⟨e, rfl⟩

/-- The paths the walker returns are pairwise distinct (well-formed
trees have no duplicate names within one listing). -/
theorem rootRefs_paths_nodup (dp : Bytes) (root : FSEntry) (hwf : rootWF root = true) :
    (((rootChains root).map (chainRef dp)).map FileRef.path).Nodup := by
  rw [List.map_map]
  have heq : ((rootChains root).map (FileRef.path ∘ chainRef dp)) =
      ((rootChains root).map (fun c => c.1)).map (joinList dp) := by
    rw [List.map_map]
    rfl
  rw [heq]
  apply List.Nodup.map_on ?inj (rootChains_fst_nodup root hwf)
  intro x hx y hy he
  obtain ⟨cx, hcx, hfx⟩ := List.mem_map.1 hx
  obtain ⟨cy, hcy, hfy⟩ := List.mem_map.1 hy
  obtain ⟨hxne, hxgood⟩ := rootChains_clean root hwf cx hcx
  obtain ⟨hyne, hygood⟩ := rootChains_clean root hwf cy hcy
  rw [← hfx, ← hfy]
  rw [← hfx, ← hfy] at he
  exact joinList_inj dp cx.1 cy.1 hxgood hygood hxne hyne he

theorem hashAll_ok_eq (H : Bytes → Bytes) (s : Nat) (l : List FileRef)
    (out : List HashedFile) (h : hashAll H s l = .ok out) :
    out = l.map (recordOf H s) := by
  induction l generalizing out with
  | nil =>
    simp [hashAll] at h
    simp [← h]
  | cons f fs ih =>
    rw [hashAll] at h
    cases hc : f.content with
    | error e => simp [hashOneFile, hc] at h
    | ok data =>
      simp only [hashOneFile, hc] at h
      cases hr : hashAll H s fs with
      | error e => rw [hr] at h; simp at h
      | ok hs =>
        rw [hr] at h
        simp at h
        rw [← h, ih hs hr]
        simp [recordOf, hc]

theorem hashAll_ok_of (H : Bytes → Bytes) (s : Nat) (l : List FileRef)
    (h : ∀ f ∈ l, f.content.isOk = true) :
    hashAll H s l = .ok (l.map (recordOf H s)) := by
  induction l with
  | nil => rfl
  | cons f fs ih =>
    have hf := h f (by simp)
    cases hc : f.content with
    | error e => rw [hc] at hf; simp [Except.isOk, Except.toBool] at hf
    | ok data =>
      rw [hashAll]
      rw [ih (fun g hg => h g (by simp [hg]))]
      simp [hashOneFile, hc, recordOf]

theorem hashAll_error_single (H : Bytes → Bytes) (s : Nat) (l : List FileRef)
    (f0 : FileRef) (e : IOErr)
    (hfil : l.filter (fun f => !f.content.isOk) = [f0])
    (he : f0.content = .error e) : hashAll H s l = .error e := by
  induction l with
  | nil => simp at hfil
  | cons f fs ih =>
    cases hc : f.content with
    | ok data =>
      have hdrop : (f :: fs).filter (fun f => !f.content.isOk) =
          fs.filter (fun f => !f.content.isOk) := by
        rw [List.filter_cons]
        simp [hc, Except.isOk, Except.toBool]
      rw [hdrop] at hfil
      rw [hashAll, ih hfil]
      simp [hashOneFile, hc]
    | error e2 =>
      have hkeep : (f :: fs).filter (fun f => !f.content.isOk) =
          f :: fs.filter (fun f => !f.content.isOk) := by
        rw [List.filter_cons]
        simp [hc, Except.isOk, Except.toBool]
      rw [hkeep] at hfil
      simp at hfil
      have hfe : f.content = .error e := by rw [hfil.1, he]
      rw [hashAll]
      simp [hashOneFile, hfe]

theorem hash_files_eq (H : Bytes → Bytes) (dp : Bytes) (root : FSEntry) :
    hash_files H dp root =
      match get_files dp root with
      | .error e => .error e
      | .ok file_list => hashAll H (dp.length + 1) (sortPaths file_list) := rfl

theorem hash_files_err_of_get (H : Bytes → Bytes) (dp : Bytes) (root : FSEntry) (e : IOErr)
    (he : get_files dp root = .error e) : hash_files H dp root = .error e := by
  rw [hash_files_eq, he]

theorem hash_directory_ok_of (H : Bytes → Bytes) (dp : Bytes) (root : FSEntry)
    (files : List HashedFile) (h : hash_files H dp root = .ok files) :
    hash_directory H dp root = .ok
      ⟨file_name dp, files,
        H (files.foldl (fun acc f => acc ++ f.hash ++ f.path) []),
        files.foldl (fun acc f => (acc + f.size) % (2 ^ 64)) 0⟩ := by
  rw [hash_directory, h]

theorem hash_directory_err_of (H : Bytes → Bytes) (dp : Bytes) (root : FSEntry) (e : IOErr)
    (he : hash_files H dp root = .error e) : hash_directory H dp root = .error e := by
  rw [hash_directory, he]

theorem create_hashfile_ok_of (H : Bytes → Bytes) (dp : Bytes) (root : FSEntry)
    (files : List HashedFile) (h : hash_files H dp root = .ok files) :
    create_hashfile H dp root = .ok (serialize_hashed_files files) := by
  rw [create_hashfile, h]

theorem create_hashfile_err_of (H : Bytes → Bytes) (dp : Bytes) (root : FSEntry) (e : IOErr)
    (he : hash_files H dp root = .error e) : create_hashfile H dp root = .error e := by
  rw [create_hashfile, he]

theorem hashAll_ok_contents (H : Bytes → Bytes) (s : Nat) (l : List FileRef)
    (out : List HashedFile) (h : hashAll H s l = .ok out) :
    ∀ f ∈ l, f.content.isOk = true := by
  induction l generalizing out with
  | nil => intro f hf; cases hf
  | cons f fs ih =>
    rw [hashAll] at h
    cases hc : f.content with
    | error e => simp [hashOneFile, hc] at h
    | ok data =>
      simp only [hashOneFile, hc] at h
      intro g hg
      rcases List.mem_cons.1 hg with hg | hg
      · subst hg; rw [hc]; rfl
      · cases hr : hashAll H s fs with
        | error e => rw [hr] at h; simp at h
        | ok hs => exact ih hs hr g hg

/-- Inversion of a successful `hash_files` run: the walk succeeded,
the records are the hashed sorted discovered files, and every
discovered content was readable. -/
theorem hash_files_ok_inv (H : Bytes → Bytes) (dp : Bytes) (root : FSEntry)
    (files : List HashedFile) (h : hash_files H dp root = .ok files) :
    rootWalkOk root = true ∧
    files = (sortPaths ((rootChains root).map (chainRef dp))).map
      (recordOf H (dp.length + 1)) ∧
    ∀ f ∈ sortPaths ((rootChains root).map (chainRef dp)), f.content.isOk = true := by
  rw [hash_files_eq] at h
  cases hw : rootWalkOk root with
  | false =>
    obtain ⟨e, he⟩ := get_files_err dp root hw
    rw [he] at h
    cases h
  | true =>
    rw [get_files_ok dp root hw] at h
    exact ⟨rfl, hashAll_ok_eq H _ _ files h, hashAll_ok_contents H _ _ files h⟩

theorem hash_directory_ok_files (H : Bytes → Bytes) (dp : Bytes) (root : FSEntry)
    (h : (hash_directory H dp root).isOk = true) :
    ∃ files, hash_files H dp root = .ok files := by
  cases hf : hash_files H dp root with
  | error e =>
    rw [hash_directory_err_of H dp root e hf] at h
    simp [Except.isOk, Except.toBool] at h
  | ok fs => exact ⟨fs, rfl⟩

theorem drop_join (dp s : Bytes) : (dp ++ 47 :: s).drop (dp.length + 1) = s := by
  have h : dp ++ 47 :: s = (dp ++ [47]) ++ s := by simp
  have h2 : dp.length + 1 = (dp ++ [47]).length := by simp
  rw [h, h2, List.drop_left]

theorem recordOf_path (H : Bytes → Bytes) (L : Nat) (f : FileRef) (d : Bytes)
    (hc : f.content = .ok d) :
    (recordOf H L f).path = f.path.drop L := by
  simp [recordOf, hc, oi_vei]

theorem pathSorted_of_pairwise (l : List Bytes)
    (h : List.Pairwise (fun a b => pathLe a b = true) l) : pathSorted l = true := by
  induction l with
  | nil => rfl
  | cons a t ih =>
    cases t with
    | nil => rfl
    | cons b r =>
      rw [pathSorted]
      simp only [Bool.and_eq_true]
      exact ⟨(List.pairwise_cons.1 h).1 b (by simp), ih (List.pairwise_cons.1 h).2⟩

theorem rootAllChains_clean (root : FSEntry) (hwf : rootWF root = true) :
    ∀ c ∈ rootAllChains root, c.1 ≠ [] ∧ ∀ n ∈ c.1, goodName n = true := by
  cases root with
  | dir n es => exact entriesAllChains_names es hwf
  | file n c => intro x hx; cases hx
  | other n => intro x hx; cases hx
  | badDir n e => intro x hx; cases hx
  | badType n e => intro x hx; cases hx

theorem rootChains_eq_filter (root : FSEntry) :
    rootChains root =
      (rootAllChains root).filter (fun c => c.1.all (fun m => !hiddenName m)) := by
  cases root with
  | dir n es => exact entriesChains_eq_filter es
  | file n c => rfl
  | other n => rfl
  | badDir n e => rfl
  | badType n e => rfl

/-- C1: determinism over enumeration order.  Two runs over trees that
hold the same directory content, presented in any enumeration order
(their visible chains are permutations of one another), produce the
same aggregate digest and the same record sequence whenever they both
succeed; neither OS listing order nor the completion order of the
parallel hashing tasks (whose collected output is in pre-sorted input
order) can change the result, because the walker output is sorted by
a total path order under which distinct files compare strictly. -/
theorem claim1_determinism (H : Bytes → Bytes) (dp : Bytes) (r1 r2 : FSEntry)
    (hperm : (rootChains r1).Perm (rootChains r2))
    (hwf1 : rootWF r1 = true)
    (hok1 : (hash_directory H dp r1).isOk = true)
    (hok2 : (hash_directory H dp r2).isOk = true) :
    (hash_directory H dp r1).map (fun d => (d.hash, d.files)) =
      (hash_directory H dp r2).map (fun d => (d.hash, d.files)) := by
  obtain ⟨files1, hf1⟩ := hash_directory_ok_files H dp r1 hok1
  obtain ⟨files2, hf2⟩ := hash_directory_ok_files H dp r2 hok2
  obtain ⟨hw1, he1, _⟩ := hash_files_ok_inv H dp r1 files1 hf1
  obtain ⟨hw2, he2, _⟩ := hash_files_ok_inv H dp r2 files2 hf2
  have hsorteq : sortPaths ((rootChains r1).map (chainRef dp)) =
      sortPaths ((rootChains r2).map (chainRef dp)) := by
    apply sorted_perm_nodup_eq
    · exact (sortPaths_perm _).trans ((hperm.map (chainRef dp)).trans (sortPaths_perm _).symm)
    · exact sortPaths_sorted _
    · exact sortPaths_sorted _
    · have hbase := rootRefs_paths_nodup dp r1 hwf1
      have hp : ((sortPaths ((rootChains r1).map (chainRef dp))).map FileRef.path).Perm
          (((rootChains r1).map (chainRef dp)).map FileRef.path) :=
        (sortPaths_perm _).map FileRef.path
      exact hp.nodup_iff.2 hbase
  have hfe : files1 = files2 := by rw [he1, he2, hsorteq]
  rw [hash_directory_ok_of H dp r1 files1 hf1, hash_directory_ok_of H dp r2 files2 hf2, hfe]

/-- Witness for C1: the same content listed in two different orders
gives the same digest and records. -/
theorem claim1_determinism_witness :
    (hash_directory (fun _ => List.replicate 32 0) [114]
        (.dir [] [.file [97] (.ok [1]), .dir [98] [.file [99] (.ok [2])]])).map
      (fun d => (d.hash, d.files)) =
    (hash_directory (fun _ => List.replicate 32 0) [114]
        (.dir [] [.dir [98] [.file [99] (.ok [2])], .file [97] (.ok [1])])).map
      (fun d => (d.hash, d.files)) :=
  claim1_determinism (fun _ => List.replicate 32 0) [114]
    (.dir [] [.file [97] (.ok [1]), .dir [98] [.file [99] (.ok [2])]])
    (.dir [] [.dir [98] [.file [99] (.ok [2])], .file [97] (.ok [1])])
    (by decide) (by decide) (by decide) (by decide)

/-- C3 (amended): the record sequence of every successful run is
sorted by relative path in the path order the code actually uses:
lexicographic on bytes with the separator 47 ordered below every
other byte (equivalently, componentwise comparison, the order of
`std::path::Path`, to which camino delegates).  It is not sorted in
plain byte-lexicographic order; see the counterexample, where the
byte 46 sorts below 47 but the component a sorts before a.c. -/
theorem claim3_records_sorted (H : Bytes → Bytes) (dp : Bytes) (root : FSEntry)
    (files : List HashedFile) (hwf : rootWF root = true)
    (hdp1 : dp ≠ []) (hdp2 : dp.getLast? ≠ some 47)
    (h : hash_files H dp root = .ok files) :
    pathSorted (files.map HashedFile.path) = true := by
  obtain ⟨hw, he, hcont⟩ := hash_files_ok_inv H dp root files h
  have hmem : ∀ f ∈ sortPaths ((rootChains root).map (chainRef dp)),
      ∃ s, f.path = (dp ++ [47]) ++ s ∧
        (recordOf H (dp.length + 1) f).path = s := by
    intro f hf
    have hf2 : f ∈ (rootChains root).map (chainRef dp) := (sortPaths_perm _).subset hf
    obtain ⟨c, hc, hcf⟩ := List.mem_map.1 hf2
    obtain ⟨hc1, hc2⟩ := rootChains_clean root hwf c hc
    have hpath : f.path = dp ++ 47 :: sepJoin c.1 := by
      rw [← hcf]
      exact joinList_clean dp c.1 hdp1 hdp2 hc1 hc2
    have hcf2 := hcont f hf
    obtain ⟨data, hdata⟩ : ∃ d, f.content = .ok d := by
      cases hcc : f.content with
      | error e => rw [hcc] at hcf2; simp [Except.isOk, Except.toBool] at hcf2
      | ok d => exact ⟨d, rfl⟩
    refine ⟨sepJoin c.1, by rw [hpath]; simp, ?_⟩
    rw [recordOf_path H (dp.length + 1) f data hdata, hpath, drop_join]
  apply pathSorted_of_pairwise
  rw [he, List.map_map]
  rw [List.pairwise_map]
  apply List.Pairwise.imp_of_mem ?imp (sortPaths_sorted ((rootChains root).map (chainRef dp)))
  intro a b ha hb hab
  obtain ⟨sa, hpa, hra⟩ := hmem a ha
  obtain ⟨sb, hpb, hrb⟩ := hmem b hb
  show pathLe ((recordOf H (dp.length + 1) a).path) ((recordOf H (dp.length + 1) b).path) = true
  rw [hra, hrb]
  have : pathLe a.path b.path = true := hab
  rw [hpa, hpb, pathLe_append_left] at this
  exact this

/-- Witness for C3 (amended) at a concrete two-file run. -/
theorem claim3_records_sorted_witness :
    pathSorted ((([⟨List.replicate 32 0, [97, 47, 98], 0⟩,
      ⟨List.replicate 32 0, [97, 46, 99], 0⟩] : List HashedFile)).map HashedFile.path) = true :=
  claim3_records_sorted (fun _ => List.replicate 32 0) [114]
    (.dir [] [.file [97, 46, 99] (.ok []), .dir [97] [.file [98] (.ok [])]])
    [⟨List.replicate 32 0, [97, 47, 98], 0⟩, ⟨List.replicate 32 0, [97, 46, 99], 0⟩]
    (by decide) (by decide) (by decide) (by decide)

/-- C9 (amended): for a root path that is non-empty and does not end
with a separator, every file path the walker discovers is the root
path, exactly one separator byte, then the relative path (the chain
names joined by separators); the unchecked substring from index
`len(root) + 1` is therefore in bounds, starts right after an ASCII
separator (hence on a character boundary), and equals the relative
path.  For a root path that already ends with a separator this fails:
see the counterexample, where the stripped path loses its first
byte. -/
theorem claim9_strip_safe (dp : Bytes) (root : FSEntry) (refs : List FileRef) (f : FileRef)
    (hwf : rootWF root = true) (hdp1 : dp ≠ []) (hdp2 : dp.getLast? ≠ some 47)
    (h : get_files dp root = .ok refs) (hf : f ∈ refs) :
    ∃ ns, ns ≠ [] ∧ (∀ n ∈ ns, goodName n = true) ∧
      f.path = dp ++ 47 :: sepJoin ns ∧
      f.path.drop (dp.length + 1) = sepJoin ns := by
  have hw : rootWalkOk root = true := by
    cases hx : rootWalkOk root with
    | false =>
      obtain ⟨e, he⟩ := get_files_err dp root hx
      rw [he] at h
      cases h
    | true => rfl
  rw [get_files_ok dp root hw] at h
  have hrefs : refs = (rootChains root).map (chainRef dp) := by
    injection h with h2
    rw [h2]
  rw [hrefs] at hf
  obtain ⟨c, hc, hcf⟩ := List.mem_map.1 hf
  obtain ⟨hc1, hc2⟩ := rootChains_clean root hwf c hc
  have hpath : f.path = dp ++ 47 :: sepJoin c.1 := by
    rw [← hcf]
    exact joinList_clean dp c.1 hdp1 hdp2 hc1 hc2
  exact ⟨c.1, hc1, hc2, hpath, by rw [hpath, drop_join]⟩

/-- Witness for C9 (amended) at a one-file tree. -/
theorem claim9_strip_safe_witness :
    ∃ ns, ns ≠ [] ∧ (∀ n ∈ ns, goodName n = true) ∧
      (⟨[114, 47, 97], .ok []⟩ : FileRef).path = [114] ++ 47 :: sepJoin ns ∧
      (⟨[114, 47, 97], .ok []⟩ : FileRef).path.drop ([114] : Bytes).length.succ = sepJoin ns :=
  claim9_strip_safe [114] (.dir [] [.file [97] (.ok [])])
    [⟨[114, 47, 97], .ok []⟩] ⟨[114, 47, 97], .ok []⟩
    (by decide) (by decide) (by decide) (by decide) (by decide)

/-- Counterexample for C9: with the accepted root path d/ (ending in a
separator) the discovered file ab has path d/ab, which does not begin
with the root followed by one more separator, and the unchecked
substring from index `len(root) + 1` is b, not the relative path
ab. -/
theorem claim9_counterexample :
    get_files [100, 47] (.dir [] [.file [97, 98] (.ok [])])
        = .ok [⟨[100, 47, 97, 98], .ok []⟩] ∧
    (([100, 47] ++ [47]).isPrefixOf [100, 47, 97, 98]) = false ∧
    List.drop (([100, 47] : Bytes).length + 1) [100, 47, 97, 98] = [98] ∧
    ([98] : Bytes) ≠ [97, 98] :=
  ⟨by decide, by decide, by decide, by decide⟩

/-- C6: one bad node aborts the whole batch.  If the walk hits any
I/O error (a failing directory listing or type inspection on a
visible entry, or a non-directory root), the whole fingerprinting
operation and the hashfile creation return an error, and the
`Except` result carries no partial records.  If the walk succeeds but
exactly one visible file is unreadable, the operation returns exactly
that file's error. -/
theorem claim6_error_abort (H : Bytes → Bytes) (dp : Bytes) (root : FSEntry) :
    (rootWalkOk root = false →
       (∃ e, hash_directory H dp root = .error e) ∧
       (∃ e, create_hashfile H dp root = .error e)) ∧
    (∀ ns e, rootWalkOk root = true →
       (rootChains root).filter (fun c => !c.2.isOk) = [(ns, Except.error e)] →
       hash_files H dp root = .error e ∧
       hash_directory H dp root = .error e ∧
       create_hashfile H dp root = .error e) := by
  constructor
  · intro hw
    obtain ⟨e, he⟩ := get_files_err dp root hw
    have hf := hash_files_err_of_get H dp root e he
    exact ⟨⟨e, hash_directory_err_of H dp root e hf⟩,
           ⟨e, create_hashfile_err_of H dp root e hf⟩⟩
  · intro ns e hw hfil
    have hreffil : ((rootChains root).map (chainRef dp)).filter
        (fun f => !f.content.isOk) =
        [chainRef dp (ns, Except.error e)] := by
      rw [List.filter_map]
      have hcomp : ((fun f : FileRef => !f.content.isOk) ∘ chainRef dp) =
          (fun c : List Bytes × Except IOErr Bytes => !c.2.isOk) := rfl
      rw [hcomp, hfil]
      rfl
    have hsortfil : (sortPaths ((rootChains root).map (chainRef dp))).filter
        (fun f => !f.content.isOk) = [chainRef dp (ns, Except.error e)] := by
      have hp := (sortPaths_perm ((rootChains root).map (chainRef dp))).filter
        (fun f => !f.content.isOk)
      rw [hreffil] at hp
      exact List.perm_singleton.1 hp
    have hhash : hashAll H (dp.length + 1)
        (sortPaths ((rootChains root).map (chainRef dp))) = .error e :=
      hashAll_error_single H (dp.length + 1) _ (chainRef dp (ns, Except.error e)) e
        hsortfil rfl
    have hf : hash_files H dp root = .error e := by
      rw [hash_files_eq, get_files_ok dp root hw]
      exact hhash
    exact ⟨hf, hash_directory_err_of H dp root e hf,
      create_hashfile_err_of H dp root e hf⟩

/-- Witness for C6: a tree whose only flaw is one unreadable file
makes the whole run fail with exactly that error. -/
theorem claim6_error_abort_witness :
    hash_files (fun _ => List.replicate 32 0) [114]
        (.dir [] [.file [97] (.error ⟨ErrKind.permissionDenied, 7⟩), .file [98] (.ok [1])])
      = .error ⟨ErrKind.permissionDenied, 7⟩ ∧
    hash_directory (fun _ => List.replicate 32 0) [114]
        (.dir [] [.file [97] (.error ⟨ErrKind.permissionDenied, 7⟩), .file [98] (.ok [1])])
      = .error ⟨ErrKind.permissionDenied, 7⟩ ∧
    create_hashfile (fun _ => List.replicate 32 0) [114]
        (.dir [] [.file [97] (.error ⟨ErrKind.permissionDenied, 7⟩), .file [98] (.ok [1])])
      = .error ⟨ErrKind.permissionDenied, 7⟩ :=
  (claim6_error_abort (fun _ => List.replicate 32 0) [114]
      (.dir [] [.file [97] (.error ⟨ErrKind.permissionDenied, 7⟩),
        .file [98] (.ok [1])])).2
    [[97]] ⟨ErrKind.permissionDenied, 7⟩ (by decide) (by decide)

/-- C2: hidden exclusion.  For any file chain of the tree (any
nesting depth): if any name on the chain starts with the hidden
marker, no discovered path and no record corresponds to it — hiding a
folder hides everything beneath it; if every name on the chain is
visible, the walker output contains its path and content and the
record sequence contains its relative path.  The serialized document
and the aggregate digest are functions of the record sequence alone
(`serialize_hashed_files`, `hash_directory`), so exclusion from the
records is exclusion from both. -/
theorem claim2_hidden_excluded (dp : Bytes) (root : FSEntry)
    (c : List Bytes × Except IOErr Bytes)
    (hwf : rootWF root = true) (hdp1 : dp ≠ []) (hdp2 : dp.getLast? ≠ some 47)
    (hc : c ∈ rootAllChains root) :
    ((∃ n ∈ c.1, hiddenName n = true) →
       (∀ refs, get_files dp root = .ok refs → ∀ f ∈ refs, f.path ≠ joinList dp c.1) ∧
       (∀ H files, hash_files H dp root = .ok files →
          ∀ rec ∈ files, HashedFile.path rec ≠ sepJoin c.1)) ∧
    ((∀ n ∈ c.1, hiddenName n = false) →
       (∀ refs, get_files dp root = .ok refs →
          ∃ f ∈ refs, f.path = joinList dp c.1 ∧ f.content = c.2) ∧
       (∀ H files, hash_files H dp root = .ok files →
          sepJoin c.1 ∈ files.map HashedFile.path)) := by
  obtain ⟨hcne, hcgood⟩ := rootAllChains_clean root hwf c hc
  constructor
  · rintro ⟨n0, hn0mem, hn0hid⟩
    have hvisfalse : ∀ c2 ∈ rootChains root, c2.1 ≠ c.1 := by
      intro c2 hc2 heq
      have hmem2 : c2 ∈ (rootAllChains root).filter
          (fun x => x.1.all (fun m => !hiddenName m)) := by
        rw [← rootChains_eq_filter]
        exact hc2
      have hall := (List.mem_filter.1 hmem2).2
      rw [heq] at hall
      have := (List.all_eq_true.1 hall) n0 hn0mem
      simp [hn0hid] at this
    constructor
    · intro refs h f hf heq
      have hw : rootWalkOk root = true := by
        cases hx : rootWalkOk root with
        | false => obtain ⟨e, he⟩ := get_files_err dp root hx; rw [he] at h; cases h
        | true => rfl
      rw [get_files_ok dp root hw] at h
      injection h with h2
      rw [← h2] at hf
      obtain ⟨c2, hc2, hcf⟩ := List.mem_map.1 hf
      obtain ⟨hc2ne, hc2good⟩ := rootChains_clean root hwf c2 hc2
      have hpaths : joinList dp c2.1 = joinList dp c.1 := by
        rw [← heq, ← hcf]
        rfl
      exact hvisfalse c2 hc2 (joinList_inj dp c2.1 c.1 hc2good hcgood hc2ne hcne hpaths)
    · intro H files h rec hrec heq
      obtain ⟨hw, he, hcont⟩ := hash_files_ok_inv H dp root files h
      rw [he] at hrec
      obtain ⟨f, hfsort, hfrec⟩ := List.mem_map.1 hrec
      have hf2 : f ∈ (rootChains root).map (chainRef dp) := (sortPaths_perm _).subset hfsort
      obtain ⟨c2, hc2, hcf⟩ := List.mem_map.1 hf2
      obtain ⟨hc2ne, hc2good⟩ := rootChains_clean root hwf c2 hc2
      have hcontf := hcont f hfsort
      obtain ⟨data, hdata⟩ : ∃ d, f.content = .ok d := by
        cases hcc : f.content with
        | error e2 => rw [hcc] at hcontf; simp [Except.isOk, Except.toBool] at hcontf
        | ok d => exact ⟨d, rfl⟩
      have hfpath : f.path = dp ++ 47 :: sepJoin c2.1 := by
        rw [← hcf]
        exact joinList_clean dp c2.1 hdp1 hdp2 hc2ne hc2good
      have hrecpath : HashedFile.path rec = sepJoin c2.1 := by
        rw [← hfrec, recordOf_path H (dp.length + 1) f data hdata, hfpath, drop_join]
      rw [hrecpath] at heq
      exact hvisfalse c2 hc2 (sepJoin_inj c2.1 c.1 hc2good hcgood hc2ne hcne heq)
  · intro hvis
    have hcchain : c ∈ rootChains root := by
      rw [rootChains_eq_filter]
      refine List.mem_filter.2 ⟨hc, ?_⟩
      apply List.all_eq_true.2
      intro m hm
      simp [hvis m hm]
    constructor
    · intro refs h
      have hw : rootWalkOk root = true := by
        cases hx : rootWalkOk root with
        | false => obtain ⟨e, he⟩ := get_files_err dp root hx; rw [he] at h; cases h
        | true => rfl
      rw [get_files_ok dp root hw] at h
      injection h with h2
      refine ⟨chainRef dp c, ?_, rfl, rfl⟩
      rw [← h2]
      exact List.mem_map_of_mem (chainRef dp) hcchain
    · intro H files h
      obtain ⟨hw, he, hcont⟩ := hash_files_ok_inv H dp root files h
      have hfsort : chainRef dp c ∈ sortPaths ((rootChains root).map (chainRef dp)) :=
        ((sortPaths_perm _).symm.subset) (List.mem_map_of_mem (chainRef dp) hcchain)
      have hcontf := hcont _ hfsort
      obtain ⟨data, hdata⟩ : ∃ d, (chainRef dp c).content = .ok d := by
        cases hcc : (chainRef dp c).content with
        | error e2 => rw [hcc] at hcontf; simp [Except.isOk, Except.toBool] at hcontf
        | ok d => exact ⟨d, rfl⟩
      have hrp : (recordOf H (dp.length + 1) (chainRef dp c)).path = sepJoin c.1 := by
        rw [recordOf_path H (dp.length + 1) _ data hdata]
        have hj : (chainRef dp c).path = dp ++ 47 :: sepJoin c.1 :=
          joinList_clean dp c.1 hdp1 hdp2 hcne hcgood
        rw [hj, drop_join]
      rw [he, ← hrp]
      exact List.mem_map_of_mem _ (List.mem_map_of_mem _ hfsort)

/-- Witness for C2: in a tree with the visible file a and the hidden
folder .h containing the visible file v, the only record is a, and it
is not the relative path .h/v of the visible file below the hidden
folder. -/
theorem claim2_hidden_excluded_witness :
    HashedFile.path ⟨List.replicate 32 0, [97], 1⟩ ≠ sepJoin [[46, 104], [118]] :=
  ((claim2_hidden_excluded [114]
      (.dir [] [.file [97] (.ok [1]), .dir [46, 104] [.file [118] (.ok [2])]])
      ([[46, 104], [118]], .ok [2])
      (by decide) (by decide) (by decide) (by decide)).1
    ⟨[46, 104], by decide, by decide⟩).2
    (fun _ => List.replicate 32 0) [⟨List.replicate 32 0, [97], 1⟩] (by decide)
    ⟨List.replicate 32 0, [97], 1⟩ (by decide)

theorem checkLine_of_parse (H : Bytes → Bytes) (dp : Bytes) (disk : Bytes → FileStatus)
    (line : Bytes) (en : Bytes × Bytes) (hp : parseLine line = some en) :
    checkLine H dp disk line =
      match disk (pathJoin dp en.2) with
      | .present (.ok data) =>
        if en.1 == H data then .ok none else .ok (some (pathJoin dp en.2))
      | .present (.error e) => .error e
      | .absent => .ok (some (pathJoin dp en.2))
      | .statErr e => .error e := by
  cases hsp : splitOnceSep 32 line with
  | none => simp [parseLine, hsp] at hp
  | some p =>
    obtain ⟨hx, rest⟩ := p
    cases hfx : fromHex hx with
    | none => simp [parseLine, hsp, hfx] at hp
    | some d =>
      simp only [parseLine, hsp, hfx, Option.some.injEq] at hp
      subst hp
      simp only [checkLine, hsp, hfx]

theorem checkLine_parse_fail (H : Bytes → Bytes) (dp : Bytes) (disk : Bytes → FileStatus)
    (line : Bytes) (hp : parseLine line = none) :
    ∀ o, checkLine H dp disk line ≠ .ok o := by
  intro o hc
  cases hsp : splitOnceSep 32 line with
  | none => simp [checkLine, hsp] at hc
  | some p =>
    obtain ⟨hx, rest⟩ := p
    cases hfx : fromHex hx with
    | none => simp [checkLine, hsp, hfx] at hc
    | some d => simp [parseLine, hsp, hfx] at hp

theorem checkLine_inv_ok (H : Bytes → Bytes) (dp : Bytes) (disk : Bytes → FileStatus)
    (line : Bytes) (o : Option Bytes) (h : checkLine H dp disk line = .ok o) :
    ∃ en, parseLine line = some en ∧
      ((o = none ∧ lineFails H dp disk en = false) ∨
       (o = some (pathJoin dp en.2) ∧ lineFails H dp disk en = true)) := by
  cases hp : parseLine line with
  | none => exact absurd h (checkLine_parse_fail H dp disk line hp o)
  | some en =>
    rw [checkLine_of_parse H dp disk line en hp] at h
    refine ⟨en, rfl, ?_⟩
    cases hd : disk (pathJoin dp en.2) with
    | absent =>
      simp only [hd] at h
      injection h with h
      right
      exact ⟨h.symm, by simp [lineFails, hd]⟩
    | statErr e => simp only [hd] at h; cases h
    | present ct =>
      cases ct with
      | error e => simp only [hd] at h; cases h
      | ok dat =>
        simp only [hd] at h
        by_cases hbeq : (en.1 == H dat) = true
        · rw [if_pos hbeq] at h
          injection h with h
          left
          refine ⟨h.symm, ?_⟩
          simp [lineFails, hd, hbeq]
        · rw [if_neg hbeq] at h
          injection h with h
          right
          refine ⟨h.symm, ?_⟩
          simp [lineFails, hd, hbeq]

theorem runLines_check_inv (H : Bytes → Bytes) (dp : Bytes) (disk : Bytes → FileStatus)
    (lines : List Bytes) (out : List Bytes)
    (h : runLines (checkLine H dp disk) lines = .ok out) :
    ∃ entries, parseLinesList lines = some entries ∧
      out = (entries.filter (lineFails H dp disk)).map (fun en => pathJoin dp en.2) := by
  induction lines generalizing out with
  | nil =>
    refine ⟨[], rfl, ?_⟩
    rw [runLines] at h
    injection h with h
    rw [← h]
    rfl
  | cons l ls ih =>
    rw [runLines] at h
    cases hcl : checkLine H dp disk l with
    | error e => rw [hcl] at h; cases h
    | ok o =>
      rw [hcl] at h
      obtain ⟨en, hen, hcase⟩ := checkLine_inv_ok H dp disk l o hcl
      cases o with
      | none =>
        obtain ⟨entries, hpe, hout⟩ := ih out h
        refine ⟨en :: entries, by rw [parseLinesList, hen, hpe], ?_⟩
        rcases hcase with ⟨_, hff⟩ | ⟨hco, _⟩
        · rw [List.filter_cons, hff]
          simpa using hout
        · cases hco
      | some p =>
        cases hrl : runLines (checkLine H dp disk) ls with
        | error e => rw [hrl] at h; cases h
        | ok ps =>
          rw [hrl] at h
          injection h with h
          obtain ⟨entries, hpe, hout⟩ := ih ps hrl
          rcases hcase with ⟨hco, _⟩ | ⟨hco, hff⟩
          · cases hco
          · refine ⟨en :: entries, by rw [parseLinesList, hen, hpe], ?_⟩
            rw [← h]
            have hp2 : p = pathJoin dp en.2 := by injection hco with hco
            rw [List.filter_cons, hff]
            simp only [if_pos]
            rw [List.map_cons, ← hout, hp2]

theorem runLines_ok_of (g : Bytes → Except IOErr (Option Bytes)) (ls : List Bytes)
    (h : ∀ l ∈ ls, ∃ o, g l = .ok o) : ∃ out, runLines g ls = .ok out := by
  induction ls with
  | nil => exact ⟨[], rfl⟩
  | cons l t ih =>
    obtain ⟨o, ho⟩ := h l (by simp)
    obtain ⟨out, hout⟩ := ih (fun x hx => h x (by simp [hx]))
    cases o with
    | none => exact ⟨out, by rw [runLines, ho, hout]⟩
    | some p => exact ⟨p :: out, by rw [runLines, ho, hout]⟩

theorem runLines_error_of (g : Bytes → Except IOErr (Option Bytes)) (ls : List Bytes)
    (h : ∃ l ∈ ls, ∀ o, g l ≠ .ok o) : ∃ e, runLines g ls = .error e := by
  induction ls with
  | nil => obtain ⟨l, hl, _⟩ := h; cases hl
  | cons l t ih =>
    cases hg : g l with
    | error e =>
      exact ⟨e, by rw [runLines, hg]⟩
    | ok o =>
      obtain ⟨l2, hl2, hno⟩ := h
      rcases List.mem_cons.1 hl2 with hl2 | hl2
      · subst hl2
        exact absurd hg (hno o)
      · obtain ⟨e, he⟩ := ih ⟨l2, hl2, hno⟩
        cases o with
        | none => exact ⟨e, by rw [runLines, hg, he]⟩
        | some p => exact ⟨e, by rw [runLines, hg, he]⟩

/-- C4 (amended): whenever validation completes successfully with a
non-empty failure set, the returned strings are exactly the
root-joined paths of the failing files: the normalized root directory
path joined (with one separator) to the relative path as it appears
in the persisted document — not the bare relative paths; see the
counterexample, where mutating a.txt under root r reports r/a, not
a. -/
theorem claim4_failed_paths (H : Bytes → Bytes) (dp data : Bytes)
    (disk : Bytes → FileStatus) (failed : List Bytes)
    (h : validate_data H dp data disk = .ok (some failed)) :
    failed ≠ [] ∧
    ∃ entries, parseDoc data = some entries ∧
      failed = ((entries.filter (lineFails H (oi_vei false dp) disk)).map
        (fun en => pathJoin (oi_vei false dp) en.2)) := by
  rw [validate_data_eq_runLines] at h
  cases hr : runLines (checkLine H (oi_vei false dp) disk) (splitLines data) with
  | error e => rw [hr] at h; cases h
  | ok out =>
    rw [hr] at h
    obtain ⟨entries, hpe, hfe⟩ := runLines_check_inv H (oi_vei false dp) disk
      (splitLines data) out hr
    cases hout : out with
    | nil =>
      rw [hout] at h
      cases h
    | cons p ps =>
      rw [hout] at h
      injection h with h
      injection h with h
      refine ⟨by rw [← h]; simp, entries, hpe, ?_⟩
      rw [← h]
      rw [hout] at hfe
      exact hfe

/-- Witness for C4 (amended) at a concrete mismatching document. -/
theorem claim4_failed_paths_witness :
    ([[114, 47, 97]] : List Bytes) ≠ [] ∧
    ∃ entries,
      parseDoc (toHex (List.replicate 32 1) ++ 32 :: [97] ++ [10]) = some entries ∧
      [[114, 47, 97]] = ((entries.filter (lineFails (fun _ => List.replicate 32 0)
          (oi_vei false [114])
          (fun p => if p = [114, 47, 97] then .present (.ok [5]) else .absent))).map
        (fun en => pathJoin (oi_vei false [114]) en.2)) :=
  claim4_failed_paths (fun _ => List.replicate 32 0) [114]
    (toHex (List.replicate 32 1) ++ 32 :: [97] ++ [10])
    (fun p => if p = [114, 47, 97] then .present (.ok [5]) else .absent)
    [[114, 47, 97]] (by decide)

/-- Counterexample for C4: with root directory r, a persisted line for
the relative path a, and a file at r/a whose content re-hashes to a
different digest, validation returns the joined path r/a (bytes
114 47 97), not the relative path a the claim asserts. -/
theorem claim4_counterexample :
    validate_data (fun _ => List.replicate 32 0) [114]
        (toHex (List.replicate 32 1) ++ 32 :: [97] ++ [10])
        (fun p => if p = [114, 47, 97] then .present (.ok [5]) else .absent)
      = .ok (some [[114, 47, 97]]) ∧
    ([114, 47, 97] : Bytes) ≠ [97] :=
  ⟨by decide, by decide⟩

/-- C8: per-line outcomes during validation.  For a well-parsed
(digest, relative path) line: a readable file with an equal digest
contributes nothing; a readable file with a different digest, or a
missing file, contributes the joined path to the single
undifferentiated failed set; an I/O error while checking existence or
while re-hashing aborts the whole validation with that error.  A run
whose lines all parse and hit no I/O error is a normal successful
completion, and one line with an I/O error turns the whole run into
an error. -/
theorem claim8_per_file_outcomes (H : Bytes → Bytes) (dp : Bytes)
    (disk : Bytes → FileStatus) :
    (∀ line en data, parseLine line = some en →
       disk (pathJoin dp en.2) = .present (.ok data) → en.1 = H data →
       checkLine H dp disk line = .ok none) ∧
    (∀ line en data, parseLine line = some en →
       disk (pathJoin dp en.2) = .present (.ok data) → en.1 ≠ H data →
       checkLine H dp disk line = .ok (some (pathJoin dp en.2))) ∧
    (∀ line en, parseLine line = some en →
       disk (pathJoin dp en.2) = .absent →
       checkLine H dp disk line = .ok (some (pathJoin dp en.2))) ∧
    (∀ line en e, parseLine line = some en →
       disk (pathJoin dp en.2) = .statErr e →
       checkLine H dp disk line = .error e) ∧
    (∀ line en e, parseLine line = some en →
       disk (pathJoin dp en.2) = .present (.error e) →
       checkLine H dp disk line = .error e) ∧
    (∀ data2, (∀ l ∈ splitLines data2, ∃ en, parseLine l = some en ∧
         ioFree (disk (pathJoin dp en.2)) = true) →
       ∃ r, validate_data H dp data2 disk = .ok r) ∧
    (∀ data2, (∃ l ∈ splitLines data2, ∃ en, parseLine l = some en ∧
         ioFree (disk (pathJoin dp en.2)) = false) →
       ∃ e, validate_data H dp data2 disk = .error e) := by
  have dpid : oi_vei false dp = dp := rfl
  refine ⟨?_, ?_, ?_, ?_, ?_, ?_, ?_⟩
  · intro line en data hp hd heq
    rw [checkLine_of_parse H dp disk line en hp]
    simp [hd, heq]
  · intro line en data hp hd hne
    rw [checkLine_of_parse H dp disk line en hp]
    simp only [hd]
    rw [if_neg (by simpa using hne)]
  · intro line en hp hd
    rw [checkLine_of_parse H dp disk line en hp]
    simp [hd]
  · intro line en e hp hd
    rw [checkLine_of_parse H dp disk line en hp]
    simp [hd]
  · intro line en e hp hd
    rw [checkLine_of_parse H dp disk line en hp]
    simp [hd]
  · intro data2 hall
    have hok : ∀ l ∈ splitLines data2, ∃ o, checkLine H dp disk l = .ok o := by
      intro l hl
      obtain ⟨en, hen, hfree⟩ := hall l hl
      rw [checkLine_of_parse H dp disk l en hen]
      cases hd : disk (pathJoin dp en.2) with
      | absent => exact ⟨some (pathJoin dp en.2), by simp [hd]⟩
      | statErr e => rw [hd] at hfree; cases hfree
      | present ct =>
        cases ct with
        | error e => rw [hd] at hfree; cases hfree
        | ok dat =>
          by_cases hbeq : (en.1 == H dat) = true
          · exact ⟨none, by simp [hd, hbeq]⟩
          · exact ⟨some (pathJoin dp en.2), by simp only [hd]; rw [if_neg hbeq]⟩
    obtain ⟨out, hout⟩ := runLines_ok_of (checkLine H dp disk) (splitLines data2) hok
    refine ⟨(match out.length with | 0 => none | _ => some out), ?_⟩
    rw [validate_data_eq_runLines, dpid, hout]
  · intro data2 hbad
    obtain ⟨l, hl, en, hen, hfree⟩ := hbad
    have hne : ∀ o, checkLine H dp disk l ≠ .ok o := by
      intro o hc
      rw [checkLine_of_parse H dp disk l en hen] at hc
      cases hd : disk (pathJoin dp en.2) with
      | absent => rw [hd] at hfree; cases hfree
      | statErr e => simp only [hd] at hc; cases hc
      | present ct =>
        cases ct with
        | error e => simp only [hd] at hc; cases hc
        | ok dat => rw [hd] at hfree; cases hfree
    obtain ⟨e, he⟩ := runLines_error_of (checkLine H dp disk) (splitLines data2)
      ⟨l, hl, hne⟩
    refine ⟨e, ?_⟩
    rw [validate_data_eq_runLines, dpid, he]

/-- Witness for C8: a missing file is reported as a failure (joined
path), as a normal result rather than an error. -/
theorem claim8_per_file_outcomes_witness :
    checkLine (fun _ => List.replicate 32 0) [114] (fun _ => FileStatus.absent)
        (toHex (List.replicate 32 0) ++ 32 :: [97])
      = .ok (some [114, 47, 97]) :=
  (claim8_per_file_outcomes (fun _ => List.replicate 32 0) [114]
      (fun _ => FileStatus.absent)).2.2.1
    (toHex (List.replicate 32 0) ++ 32 :: [97]) (List.replicate 32 0, [97])
    (by decide) (by decide)

/-- When exactly one line of the batch yields an error and every
other line succeeds, the collected result is that error regardless of
processing order. -/
theorem runLines_unique_error (g : Bytes → Except IOErr (Option Bytes)) (ls : List Bytes)
    (l0 : Bytes) (e : IOErr) (h0 : l0 ∈ ls) (he : g l0 = .error e)
    (hothers : ∀ l ∈ ls, l ≠ l0 → ∃ o, g l = .ok o) :
    runLines g ls = .error e := by
  induction ls with
  | nil => cases h0
  | cons l t ih =>
    by_cases hl : l = l0
    · subst hl
      exact runLines_cons_error g l t e he
    · obtain ⟨o, ho⟩ := hothers l (by simp) hl
      have h0t : l0 ∈ t := by
        rcases List.mem_cons.1 h0 with h | h
        · exact absurd h.symm hl
        · exact h
      have ht := ih h0t (fun x hx hne => hothers x (by simp [hx]) hne)
      cases o with
      | none => rw [runLines, ho, ht]
      | some p => rw [runLines, ho, ht]

/-- A line that parses and whose disk answer raises no I/O error
checks out with a per-line result, not an error. -/
theorem checkLine_ok_of_clean (H : Bytes → Bytes) (dp : Bytes) (disk : Bytes → FileStatus)
    (l : Bytes) (en : Bytes × Bytes) (hen : parseLine l = some en)
    (hfree : ioFree (disk (pathJoin dp en.2)) = true) :
    ∃ o, checkLine H dp disk l = .ok o := by
  rw [checkLine_of_parse H dp disk l en hen]
  cases hd : disk (pathJoin dp en.2) with
  | absent => exact ⟨some (pathJoin dp en.2), by simp [hd]⟩
  | statErr e => rw [hd] at hfree; cases hfree
  | present ct =>
    cases ct with
    | error e => rw [hd] at hfree; cases hfree
    | ok dat =>
      by_cases hbeq : (en.1 == H dat) = true
      · exact ⟨none, by simp [hd, hbeq]⟩
      · exact ⟨some (pathJoin dp en.2), by simp only [hd]; rw [if_neg hbeq]⟩

/-- C7 (amended): a malformed persisted-document line aborts the
entire validation with an error in both malformed-line cases, with no
per-line tolerance.  The error kind is not the generic InvalidData in
both cases: when the malformed line is the only line that does not
check out cleanly (every other line parses and meets no I/O error),
the run aborts with exactly the NotFound kind for a missing delimiter
and exactly the InvalidData kind for an undecodable digest; with
several failing lines the program still aborts, but the parallel
collection returns one of their errors chosen scheduling
dependently, so only the existence of an error is concluded there. -/
theorem claim7_malformed_line_errors (H : Bytes → Bytes) (dp data : Bytes)
    (disk : Bytes → FileStatus) (l0 : Bytes) (h0 : l0 ∈ splitLines data) :
    (parseLine l0 = none → ∃ e, validate_data H dp data disk = .error e) ∧
    ((∀ l ∈ splitLines data, l ≠ l0 →
        ∃ en, parseLine l = some en ∧
          ioFree (disk (pathJoin (oi_vei false dp) en.2)) = true) →
      (splitOnceSep 32 l0 = none →
         validate_data H dp data disk = .error ⟨ErrKind.notFound, 0⟩) ∧
      (∀ hx rest, splitOnceSep 32 l0 = some (hx, rest) → fromHex hx = none →
         validate_data H dp data disk = .error ⟨ErrKind.invalidData, 0⟩)) := by
  constructor
  · intro hp
    obtain ⟨e, he⟩ := runLines_error_of (checkLine H (oi_vei false dp) disk)
      (splitLines data) ⟨l0, h0, checkLine_parse_fail H (oi_vei false dp) disk l0 hp⟩
    exact ⟨e, by rw [validate_data_eq_runLines, he]⟩
  · intro hothers
    have hclean : ∀ l ∈ splitLines data, l ≠ l0 →
        ∃ o, checkLine H (oi_vei false dp) disk l = .ok o := by
      intro l hl hne
      obtain ⟨en, hen, hfree⟩ := hothers l hl hne
      exact checkLine_ok_of_clean H (oi_vei false dp) disk l en hen hfree
    constructor
    · intro hsp
      have hc : checkLine H (oi_vei false dp) disk l0 = .error ⟨ErrKind.notFound, 0⟩ := by
        simp [checkLine, hsp]
      rw [validate_data_eq_runLines,
        runLines_unique_error (checkLine H (oi_vei false dp) disk) (splitLines data)
          l0 ⟨ErrKind.notFound, 0⟩ h0 hc hclean]
    · intro hx rest hsp hfh
      have hc : checkLine H (oi_vei false dp) disk l0 = .error ⟨ErrKind.invalidData, 0⟩ := by
        simp [checkLine, hsp, hfh]
      rw [validate_data_eq_runLines,
        runLines_unique_error (checkLine H (oi_vei false dp) disk) (splitLines data)
          l0 ⟨ErrKind.invalidData, 0⟩ h0 hc hclean]

/-- Witness for C7 (amended), exercising the InvalidData side on a
single-line document whose digest field is not hex (the only line is
trivially the unique failing line). -/
theorem claim7_malformed_line_errors_witness :
    validate_data (fun _ => List.replicate 32 0) [114] [122, 122, 32, 97, 10]
        (fun _ => FileStatus.absent) = .error ⟨ErrKind.invalidData, 0⟩ :=
  ((claim7_malformed_line_errors (fun _ => List.replicate 32 0) [114]
      [122, 122, 32, 97, 10] (fun _ => FileStatus.absent) [122, 122, 32, 97]
      (by decide)).2
    (by
      intro l hl hne
      exfalso
      have hs : splitLines [122, 122, 32, 97, 10] = [[122, 122, 32, 97]] := by decide
      rw [hs] at hl
      exact hne (by simpa using hl))).2 [122, 122] [97] (by decide) (by decide)
